import Mathlib

/-
Verification of the TEENet kryptology threshold-signature core against its
natural-language specification.

The code works over a fixed prime-order group G of order q with generator g
(spec, section 3).  Every element of such a group is a scalar multiple of g,
so the embedding represents both scalars and points as elements of ZMod q,
a point being identified with its discrete logarithm with respect to g:
  - ScalarBaseMult s (that is, g * s) is s itself,
  - point addition is addition in ZMod q,
  - Point.Mul by a scalar is multiplication in ZMod q,
  - the identity point is 0,
  - ToAffineCompressed / FromAffineCompressed round-trip to the identity.
Go maps are embedded as association lists whose list order is the
(nondeterministic) iteration order; nil pointers stored in a map are
Option.none.  Byte strings holding scalars are embedded as the natural
number they decode to.
-/

namespace Krypto

/-! ## The sharing package (pkg/sharing): Feldman verifiable secret sharing -/

/-- Error conditions surfaced by the sharing layer. -/
inductive SharingError
  | invalidSecret
  | limitLtThreshold
  | thresholdTooSmall
  | tooManyShares
  | invalidCurve
  | idsLength
  | zeroId
  | duplicateId
  | invalidShare
  | notEqual
  | emptyCommitments
  deriving DecidableEq, Repr

/-- A Shamir share: pair of identifier and scalar value; the value bytes are
embedded as the natural number they decode to. -/
structure ShamirShare where
  Id : ℕ
  Value : ℕ
  deriving DecidableEq, Repr

/-- Scalar.SetBytes: decoding a byte string into the scalar field succeeds
exactly when the encoded integer is a canonical field element. -/
def scalarSetBytes (q : ℕ) (v : ℕ) : Option (ZMod q) :=
  if v < q then some ((v : ZMod q)) else none

/-- Modelled from the spec: ShamirShare.Validate of the sharing package is not
under src/.  Per spec section 7 (InvalidShare) it rejects a zero identifier and
a value that does not decode as a field element. -/
def shamirShareValidate (q : ℕ) (s : ShamirShare) : Except SharingError Unit :=
  if s.Id = 0 then .error .invalidShare
  else if q ≤ s.Value then .error .invalidShare
  else .ok ()

/-- Modelled from the spec: Polynomial of the sharing package is not under
src/.  Construction from (secret, t, rng) sets the constant coefficient to the
secret and draws the remaining t-1 coefficients from the randomness source
(spec sections 3 and 4.1); the source is injected as a stream of scalars. -/
def polynomialInit (q : ℕ) (secret : ZMod q) (t : ℕ) (rng : ℕ → ZMod q) :
    List (ZMod q) :=
  secret :: (List.range (t - 1)).map rng

/-- Modelled from the spec: Polynomial.Evaluate is Horner evaluation of the
coefficient list, Evaluate x = sum of a_k * x^k (spec sections 3 and 4.1). -/
def polyEval (q : ℕ) (coeffs : List (ZMod q)) (x : ZMod q) : ZMod q :=
  coeffs.foldr (fun a acc => a + acc * x) 0

/-- FeldmanVerifier holds the public commitments C_k = g * a_k; in
discrete-log form the commitment to a_k is a_k itself. -/
structure FeldmanVerifier (q : ℕ) where
  Commitments : List (ZMod q)
  deriving DecidableEq, Repr

/-- The iterative commitment-polynomial evaluation inside
FeldmanVerifier.Verify: starting from (i, rhs) = (1, C_0), each step does
i := i * x and rhs := rhs + C_j * i. -/
def verifyRhsFold (q : ℕ) (x : ZMod q) (rest : List (ZMod q))
    (st : ZMod q × ZMod q) : ZMod q × ZMod q :=
  rest.foldl (fun p c => (p.1 * x, p.2 + c * (p.1 * x))) st

/-- FeldmanVerifier.Verify: validates the share, then accepts iff
g * value = sum over k of C_k * id^k.  An empty commitment vector would make
the Go code fault on Commitments[0]; that is represented by a distinguished
error. -/
def FeldmanVerifier.Verify (q : ℕ) (v : FeldmanVerifier q) (share : ShamirShare) :
    Except SharingError Unit :=
  match v.Commitments with
  | [] => .error .emptyCommitments
  | c0 :: rest =>
    match shamirShareValidate q share with
    | .error e => .error e
    | .ok _ =>
      let x : ZMod q := (share.Id : ZMod q)
      let rhs := (verifyRhsFold q x rest (1, c0)).2
      let sc : ZMod q := (share.Value : ZMod q)
      let lhs := sc
      if lhs = rhs then .ok () else .error .notEqual

/-- The Feldman secret-sharing configuration.  The group is the ambient
ZMod q; the Curve field records only whether a (non-nil) curve was supplied. -/
structure Feldman where
  Threshold : ℕ
  Limit : ℕ
  Curve : Option Unit
  IDs : List ℕ
  deriving DecidableEq, Repr

/-- NewFeldman: validates threshold, limit, curve and the optional explicit
identifier list; with no identifiers supplied the list defaults to 1..limit. -/
def NewFeldman (threshold limit : ℕ) (curve : Option Unit) (IDs : List ℕ) :
    Except SharingError Feldman :=
  if limit < threshold then .error .limitLtThreshold
  else if threshold < 2 then .error .thresholdTooSmall
  else if 255 < limit then .error .tooManyShares
  else if curve = none then .error .invalidCurve
  else if IDs ≠ [] ∧ IDs.length ≠ limit then .error .idsLength
  else if IDs ≠ [] ∧ 0 ∈ IDs then .error .zeroId
  else if IDs ≠ [] ∧ ¬ IDs.Nodup then .error .duplicateId
  else .ok ⟨threshold, limit, curve,
    if IDs = [] then List.range' 1 limit else IDs⟩

/-- Feldman.Split: rejects the zero secret, samples a fresh polynomial with
constant term the secret, produces one share per identifier and the
commitment vector to the threshold many coefficients. -/
def Feldman.Split (q : ℕ) (f : Feldman) (secret : ZMod q) (rng : ℕ → ZMod q) :
    Except SharingError (FeldmanVerifier q × List (ℕ × ShamirShare)) :=
  if secret = 0 then .error .invalidSecret
  else
    let poly := polynomialInit q secret f.Threshold rng
    let shares := f.IDs.map (fun id =>
      (id, ShamirShare.mk id (polyEval q poly (id : ZMod q)).val))
    let verifier : FeldmanVerifier q := ⟨(poly.take f.Threshold).map id⟩
    .ok (verifier, shares)

/-! ## Association-list embedding of Go maps

A Go map is embedded as an association list; the list order is the
iteration order, which Go leaves nondeterministic, so theorems about
order-(in)dependence quantify over permutations of these lists.  Indexing a
missing key yields the zero value (a nil pointer), embedded as none. -/

/-- Lookup of a key in an association list (first matching entry). -/
def alookup {α : Type} : List (ℕ × α) → ℕ → Option α
  | [], _ => none
  | p :: rest, i => if p.1 = i then some p.2 else alookup rest i

/-- In-place update of the value stored under a key, leaving other entries
and the entry order untouched. -/
def aupdate {α : Type} (l : List (ℕ × α)) (k : ℕ) (v : α) : List (ℕ × α) :=
  l.map (fun p => if p.1 = k then (k, v) else p)

/-! ## The frost DKG package (pkg/dkg/frost) -/

/-- EvalCommitmentPoly: Horner evaluation in the group from the
highest-degree coefficient down.  The leading read of coefs[len-1] faults on
an empty vector, which is represented by none; the compressed-point
round-trip it performs is the identity in the group model. -/
def EvalCommitmentPoly (q : ℕ) (coefs : List (ZMod q)) (x : ZMod q) :
    Option (ZMod q) :=
  match coefs.reverse with
  | [] => none
  | top :: rest => some (rest.foldl (fun out c => out * x + c) top)

/-- The participant state of pkg/dkg/frost; otherCount is the number of
entries of otherParticipantShares, the only use ResharingRound2 makes of
that map. -/
structure DkgParticipant (q : ℕ) where
  Id : ℕ
  Threshold : ℕ
  otherCount : ℕ
  SkShare : Option (ZMod q)
  VerificationKey : Option (ZMod q)
  VkShare : Option (ZMod q)
  Commitments : List (ZMod q)
  deriving DecidableEq, Repr

/-- The Resharing round-1 broadcast payload. -/
structure ResharingBcast (q : ℕ) where
  As : List (ZMod q)
  PHIs : List (ZMod q)
  deriving DecidableEq, Repr

/-- Abnormal terminations of the Go code that are not returned errors:
out-of-range slice indexing, dereference of a nil pointer, and the explicit
panic of the final self-consistency check. -/
inductive Crash
  | indexOutOfRange (idx len : ℕ)
  | nilDereference
  | invalidShareFinal
  deriving DecidableEq, Repr

/-- The error returns of ResharingRound2; invalidSubShare i j is the
"invalid share g_i(j)" rejection naming the sender and the recipient. -/
inductive FrostError
  | invalidThreshold
  | invalidInputs
  | invalidBroadcastData
  | invalidP2PData
  | scalarDecodeError
  | invalidSubShare (i j : ℕ)
  | shamirConfigError
  | lagrangeError
  deriving DecidableEq, Repr

/-- Overall outcome of a ResharingRound2 call: a returned error, a runtime
crash, or success carrying the updated participant state. -/
inductive RunResult (q : ℕ)
  | err (e : FrostError)
  | crash (c : Crash)
  | ok (st : DkgParticipant q)
  deriving DecidableEq, Repr

/-- Whether a run result is a successful completion. -/
def RunResult.isOk {q : ℕ} : RunResult q → Bool
  | .ok _ => true
  | _ => false

/-- Modelled from the spec: NewShamir of the sharing package is not under
src/.  Its configuration invariants (spec section 3) are 2 ≤ t ≤ n ≤ 255. -/
def newShamirOk (t n : ℕ) : Bool :=
  decide (2 ≤ t) && decide (t ≤ n) && decide (n ≤ 255)

/-- Modelled from the spec: Shamir.LagrangeCoeffs is not under src/.  It
fails if fewer evaluation points than the threshold are supplied, if any id
is zero, or if duplicates are present (spec section 4.2). -/
def lagrangeCoeffsOk (t : ℕ) (xs : List ℕ) : Bool :=
  decide (t ≤ xs.length) && !(xs.any (· = 0)) && decide xs.Nodup

/-- Modelled from the spec: the Lagrange coefficient at zero of point j among
points xs, the product over k in xs with k ≠ j of (-k) * (j - k)⁻¹. -/
def lagrangeCoeffAt0 (q : ℕ) (xs : List ℕ) (j : ℕ) : ZMod q :=
  ((xs.filter (fun k => k ≠ j)).map
    (fun k => (-(k : ZMod q)) * ((j : ZMod q) - (k : ZMod q))⁻¹)).prod

/-- Outcome of the sender-verification loop of ResharingRound2; every
constructor carries the broadcast map as mutated so far, because the
overwrite of As[0] happens in place on caller-visible data. -/
inductive LoopOut (q : ℕ)
  | fail (e : FrostError) (bcast : List (ℕ × Option (ResharingBcast q)))
  | crashed (c : Crash) (bcast : List (ℕ × Option (ResharingBcast q)))
  | done (bcast : List (ℕ × Option (ResharingBcast q)))
      (gj : List (ℕ × ZMod q)) (phi0 : Option (ZMod q))
  deriving DecidableEq, Repr

/-- Outcome of the loop body of ResharingRound2 for one sender; the Upd
constructors record that the in-place overwrite of As[0] already happened,
carrying the entry read from the broadcast map (data) and the derived value
(A0) written into it. -/
inductive SenderRes (q : ℕ)
  | failNoUpd (e : FrostError)
  | crashNoUpd (c : Crash)
  | failUpd (e : FrostError) (data : ResharingBcast q) (A0 : ZMod q)
  | crashUpd (c : Crash) (data : ResharingBcast q) (A0 : ZMod q)
  | pass (gji p0 : ZMod q) (data : ResharingBcast q) (A0 : ZMod q)
  deriving DecidableEq, Repr

/-- The loop body of ResharingRound2 (lines 75-102) for sender i0, taking
the two map lookups it performs: decode the incoming sub-share, capture
PHIs[0] when no earlier sender was observed, derive A0 from the old joint
commitments at the sender id, overwrite As[0] with it (faulting when As is
empty), and check the sub-share against the overwritten As vector evaluated
at the participant id. -/
def senderEval (q dpId i0 : ℕ) (osh : Option (Option ShamirShare))
    (obd : Option (Option (ResharingBcast q))) (phi0 : Option (ZMod q)) :
    SenderRes q :=
  match osh with
  | none => .crashNoUpd .nilDereference
  | some none => .crashNoUpd .nilDereference
  | some (some share) =>
    match scalarSetBytes q share.Value with
    | none => .failNoUpd .scalarDecodeError
    | some gji =>
      match obd with
      | none => .crashNoUpd .nilDereference
      | some none => .crashNoUpd .nilDereference
      | some (some data) =>
        match (if phi0.isSome then phi0 else data.PHIs.get? 0) with
        | none => .crashNoUpd (.indexOutOfRange 0 0)
        | some p0 =>
          match EvalCommitmentPoly q data.PHIs ((i0 : ℕ) : ZMod q) with
          | none => .crashNoUpd (.indexOutOfRange 0 0)
          | some A0 =>
            match data.As with
            | [] => .crashNoUpd (.indexOutOfRange 0 0)
            | _ :: _ =>
              match EvalCommitmentPoly q (data.As.set 0 A0)
                  ((dpId : ℕ) : ZMod q) with
              | none => .crashUpd (.indexOutOfRange 0 0) data A0
              | some v =>
                if v = gji then .pass gji p0 data A0
                else .failUpd (.invalidSubShare i0 dpId) data A0

/-- The per-sender loop of ResharingRound2 (lines 75-102): run the body on
each sender in iteration order, threading the in-place As[0] overwrites,
the collected Gj values and the first observed PHIs[0]. -/
def processSenders (q : ℕ) (dpId : ℕ) (p2p : List (ℕ × Option ShamirShare)) :
    List ℕ → List (ℕ × Option (ResharingBcast q)) → List (ℕ × ZMod q) →
    Option (ZMod q) → LoopOut q
  | [], acc, gj, phi0 => .done acc gj phi0
  | i :: pending, acc, gj, phi0 =>
    match senderEval q dpId i (alookup p2p i) (alookup acc i) phi0 with
    | .failNoUpd e => .fail e acc
    | .crashNoUpd c => .crashed c acc
    | .failUpd e data A0 =>
      .fail e (aupdate acc i (some ⟨data.As.set 0 A0, data.PHIs⟩))
    | .crashUpd c data A0 =>
      .crashed c (aupdate acc i (some ⟨data.As.set 0 A0, data.PHIs⟩))
    | .pass gji p0 data A0 =>
      processSenders q dpId p2p pending
        (aupdate acc i (some ⟨data.As.set 0 A0, data.PHIs⟩))
        (gj ++ [(i, gji)]) (some p0)

/-- The inner sum of the new-commitments loop for one exponent k: the
identity point plus As[k] * lambda_i over the senders, reading the mutated
broadcast map; reading past the end of an As vector is a crash. -/
def commitSum (q : ℕ) (acc : List (ℕ × Option (ResharingBcast q)))
    (lam : ℕ → ZMod q) (k : ℕ) : List ℕ → ZMod q → Sum Crash (ZMod q)
  | [], s => .inr s
  | i :: rest, s =>
    match alookup acc i with
    | none => .inl .nilDereference
    | some none => .inl .nilDereference
    | some (some d) =>
      match d.As.get? k with
      | none => .inl (.indexOutOfRange k d.As.length)
      | some a => commitSum q acc lam k rest (s + a * lam i)

/-- The new-commitments loop of ResharingRound2 (lines 123-130) over the
exponents ks = [1, ..., Threshold-1]. -/
def commitmentsLoop (q : ℕ) (acc : List (ℕ × Option (ResharingBcast q)))
    (lam : ℕ → ZMod q) (S : List ℕ) : List ℕ → Sum Crash (List (ZMod q))
  | [] => .inr []
  | k :: ks =>
    match commitSum q acc lam k S 0 with
    | .inl c => .inl c
    | .inr v =>
      match commitmentsLoop q acc lam S ks with
      | .inl c => .inl c
      | .inr rest => .inr (v :: rest)

/-- The post-loop phase of ResharingRound2 (lines 104-145): Lagrange
recombination of the sub-shares, derivation of the new joint commitments
from phi0 and the overwritten As vectors, the final self-consistency check
and the state write-back.  The lookup of Gj[i] uses getD: every processed
sender was recorded, so the default is never read. -/
def postProcess (q : ℕ) (dp : DkgParticipant q) (oldThreshold : ℕ)
    (S : List ℕ) (acc : List (ℕ × Option (ResharingBcast q)))
    (gj : List (ℕ × ZMod q)) (phi0 : Option (ZMod q)) : RunResult q :=
  if !(newShamirOk oldThreshold S.length) then .err .shamirConfigError
  else if !(lagrangeCoeffsOk oldThreshold S) then .err .lagrangeError
  else
    let lam : ℕ → ZMod q := lagrangeCoeffAt0 q S
    let skShare : ZMod q :=
      S.foldl (fun s i => s + lam i * ((alookup gj i).getD 0)) 0
    match phi0 with
    | none => .crash .nilDereference
    | some p0 =>
      match commitmentsLoop q acc lam S (List.range' 1 (dp.Threshold - 1))
      with
      | .inl c => .crash c
      | .inr comTail =>
        match EvalCommitmentPoly q (p0 :: comTail) ((dp.Id : ℕ) : ZMod q) with
        | none => .crash (.indexOutOfRange 0 0)
        | some v =>
          if v = skShare then
            .ok { dp with
                SkShare := some skShare
                VerificationKey := some p0
                VkShare := some skShare
                Commitments := p0 :: comTail }
          else .crash .invalidShareFinal

/-- The per-entry structural check of ResharingRound2 (lines 49-58): a nil
entry, an As vector of length other than Threshold - 1, or a PHIs vector of
length other than oldThreshold is invalid broadcast data. -/
def badBcastEntry (q T oldT : ℕ) : Option (ResharingBcast q) → Bool
  | none => true
  | some d => decide (d.As.length ≠ T - 1) || decide (d.PHIs.length ≠ oldT)

/-- ResharingRound2 of pkg/dkg/frost (first document of
resharing_round2.go): structural validation, the per-sender verification
loop, then the post-loop phase.  Returns the outcome together with the
broadcast map as left behind (its As[0] entries are overwritten in
place). -/
def ResharingRound2 (q : ℕ) (dp : DkgParticipant q) (oldThreshold : ℕ)
    (bcast : List (ℕ × Option (ResharingBcast q)))
    (p2psend : List (ℕ × Option ShamirShare)) :
    RunResult q × List (ℕ × Option (ResharingBcast q)) :=
  if dp.Threshold = 0 ∨ dp.otherCount = 0 ∨ dp.otherCount + 1 < dp.Threshold
  then (.err .invalidThreshold, bcast)
  else if bcast.length ≠ oldThreshold ∨ p2psend.length ≠ oldThreshold then
    (.err .invalidInputs, bcast)
  else if bcast.any
      (fun p => badBcastEntry q dp.Threshold oldThreshold p.2) then
    (.err .invalidBroadcastData, bcast)
  else if p2psend.any (fun p => p.2.isNone) then
    (.err .invalidP2PData, bcast)
  else
    match processSenders q dp.Id p2psend (bcast.map Prod.fst) bcast [] none
    with
    | .fail e acc => (.err e, acc)
    | .crashed c acc => (.crash c, acc)
    | .done acc gj phi0 =>
      (postProcess q dp oldThreshold (bcast.map Prod.fst) acc gj phi0, acc)

/-! ## internal.SampleUniqueUint32s -/

/-- Result of the identifier sampler. -/
inductive SampleResult
  | err
  | ok (l : List ℕ)
  deriving DecidableEq, Repr

/-- The collection loop of SampleUniqueUint32s (lines 15-18): draw
min + rand % width, insert into the set of untruncated integers when fresh,
stop once n distinct integers are collected.  The random source is an
injected stream; fuel bounds the number of draws, with none standing for
non-termination of the Go loop. -/
def sampleLoop (mn width n : ℕ) (stream : ℕ → ℕ) :
    ℕ → ℕ → List ℕ → Option (List ℕ)
  | 0, _, acc => if n ≤ acc.length then some acc else none
  | fuel + 1, k, acc =>
    if n ≤ acc.length then some acc
    else
      sampleLoop mn width n stream fuel (k + 1)
        (if mn + stream k % width ∈ acc then acc
         else acc ++ [mn + stream k % width])

/-- SampleUniqueUint32s(n, min, max): error when n exceeds max - min (as
signed integers), otherwise the collection loop over [min, max) followed by
the output loop (lines 20-23), which truncates each collected integer with
uint32(num), that is, reduces it mod 2^32. -/
def SampleUniqueUint32s (n mn mx : ℕ) (fuel : ℕ) (stream : ℕ → ℕ) :
    Option SampleResult :=
  if (n : ℤ) > (mx : ℤ) - (mn : ℤ) then some .err
  else (sampleLoop mn (mx - mn) n stream fuel 0 []).map
    (fun raw => .ok (raw.map (fun v => v % 2 ^ 32)))

/-! ## Challenge derivation (ted25519/frost challenge derivers) -/

/-- The order of the ed25519 scalar field. -/
def edOrder : ℕ := 2 ^ 252 + 27742317777372353535851937790883648493

/-- The order of the secp256k1 scalar field. -/
def k256Order : ℕ :=
  115792089237316195423570985008687907852837564279074904382605163141518161494337

/-- Little-endian interpretation of a byte string as a natural number. -/
def leBytesToNat (bs : List ℕ) : ℕ := bs.foldr (fun b acc => b + 256 * acc) 0

/-- Big-endian interpretation of a byte string as a natural number. -/
def beBytesToNat (bs : List ℕ) : ℕ := bs.foldl (fun acc b => acc * 256 + b) 0

/-- Modelled from the spec: ScalarEd25519.SetBytesWide is not under src/; it
reduces the wide digest into the ed25519 scalar field (spec section 4.6),
bytes read little-endian. -/
def scalarEd25519SetBytesWide (bs : List ℕ) : ZMod edOrder :=
  (leBytesToNat bs : ZMod edOrder)

/-- Modelled from the spec: ScalarK256.SetBytesWide is not under src/; it
reduces the wide digest into the secp256k1 scalar field (spec section 4.6),
bytes read big-endian. -/
def scalarK256SetBytesWide (bs : List ℕ) : ZMod k256Order :=
  (beBytesToNat bs : ZMod k256Order)

/-- The common challenge-derivation shape: hash the concatenation
R.compressed, then pk.compressed, then the message, and reduce the digest
with the given scalar reduction. -/
def deriveChallengeCore {P S : Type} (reduce : List ℕ → S)
    (digest : List ℕ → List ℕ) (enc : P → List ℕ)
    (msg : List ℕ) (pubKey r : P) : S :=
  reduce (digest (enc r ++ enc pubKey ++ msg))

/-- Ed25519ChallengeDeriver.DeriveChallenge: a fresh sha512 state receives
the compressed commitment point, the compressed public key and the message
in that order; the digest is reduced with the ed25519 wide reduction.  The
hash and the point compression live outside the core and are injected. -/
def Ed25519DeriveChallenge {P : Type} (digest : List ℕ → List ℕ)
    (enc : P → List ℕ) (msg : List ℕ) (pubKey r : P) : ZMod edOrder :=
  let h : List ℕ := []
  let h := h ++ enc r
  let h := h ++ enc pubKey
  let h := h ++ msg
  scalarEd25519SetBytesWide (digest h)

/-- Secp256k1ChallengeDeriver.DeriveChallenge: identical hashing sequence,
reduced with the secp256k1 wide reduction. -/
def Secp256k1DeriveChallenge {P : Type} (digest : List ℕ → List ℕ)
    (enc : P → List ℕ) (msg : List ℕ) (pubKey r : P) : ZMod k256Order :=
  let h : List ℕ := []
  let h := h ++ enc r
  let h := h ++ enc pubKey
  let h := h ++ msg
  scalarK256SetBytesWide (digest h)

/-! ## Helper lemmas on the association-list embedding -/

theorem aupdate_cons {α : Type} (a : ℕ) (b : α) (rest : List (ℕ × α))
    (i : ℕ) (v : α) :
    aupdate ((a, b) :: rest) i v
      = (if a = i then (i, v) else (a, b)) :: aupdate rest i v := rfl

theorem alookup_eq_some_mem {α : Type} {l : List (ℕ × α)} {i : ℕ} {v : α}
    (h : alookup l i = some v) : (i, v) ∈ l := by
  induction l with
  | nil => simp [alookup] at h
  | cons p rest ih =>
    obtain ⟨a, b⟩ := p
    rw [alookup] at h
    by_cases hp : a = i
    · rw [if_pos (by simpa using hp)] at h
      cases h
      subst hp
      exact List.mem_cons_self _ _
    · rw [if_neg (by simpa using hp)] at h
      exact List.mem_cons_of_mem _ (ih h)

theorem alookup_isSome_of_mem_keys {α : Type} {l : List (ℕ × α)} {i : ℕ}
    (h : i ∈ l.map Prod.fst) : ∃ v, alookup l i = some v := by
  induction l with
  | nil => simp at h
  | cons p rest ih =>
    obtain ⟨a, b⟩ := p
    by_cases hp : a = i
    · exact ⟨b, by simp [alookup, hp]⟩
    · simp only [List.map_cons, List.mem_cons] at h
      rcases h with h | h
      · exact absurd h.symm hp
      · obtain ⟨v, hv⟩ := ih h
        exact ⟨v, by simp [alookup, hp, hv]⟩

theorem alookup_aupdate_self {α : Type} {l : List (ℕ × α)} {i : ℕ}
    (h : ∃ w, alookup l i = some w) (v : α) :
    alookup (aupdate l i v) i = some v := by
  obtain ⟨w', hw⟩ := h
  induction l with
  | nil => simp [alookup] at hw
  | cons p rest ih =>
    obtain ⟨a, b⟩ := p
    rw [aupdate_cons]
    by_cases hp : a = i
    · rw [if_pos hp, alookup, if_pos rfl]
    · rw [alookup] at hw
      rw [if_neg (by simpa using hp)] at hw
      rw [if_neg hp, alookup, if_neg (by simpa using hp)]
      exact ih hw

theorem alookup_aupdate_ne {α : Type} (l : List (ℕ × α)) {i k : ℕ} (v : α)
    (h : k ≠ i) : alookup (aupdate l i v) k = alookup l k := by
  induction l with
  | nil => rfl
  | cons p rest ih =>
    obtain ⟨a, b⟩ := p
    rw [aupdate_cons]
    by_cases hp : a = i
    · rw [if_pos hp, alookup, if_neg (by simpa using (Ne.symm h)), alookup,
        if_neg (by simp [hp, Ne.symm h]), ih]
    · rw [if_neg hp]
      by_cases hk : a = k
      · rw [alookup, if_pos (by simpa using hk), alookup,
          if_pos (by simpa using hk)]
      · rw [alookup, if_neg (by simpa using hk), alookup,
          if_neg (by simpa using hk), ih]

theorem aupdate_map_fst {α : Type} (l : List (ℕ × α)) (i : ℕ) (v : α) :
    (aupdate l i v).map Prod.fst = l.map Prod.fst := by
  induction l with
  | nil => rfl
  | cons p rest ih =>
    obtain ⟨a, b⟩ := p
    rw [aupdate_cons]
    by_cases hp : a = i
    · simp [if_pos hp, ih, hp]
    · simp only [if_neg hp, List.map_cons, ih]

/-- Looking up a key of an association list is invariant under permutation
when the keys are distinct. -/
theorem alookup_perm {α : Type} {l1 l2 : List (ℕ × α)} (hp : l1.Perm l2)
    (hnd : (l1.map Prod.fst).Nodup) (i : ℕ) : alookup l1 i = alookup l2 i := by
  induction hp with
  | nil => rfl
  | cons p hperm ih =>
    simp only [List.map_cons, List.nodup_cons] at hnd
    by_cases hp1 : p.1 = i <;> simp [alookup, hp1, ih hnd.2]
  | swap p1 p2 rest =>
    simp only [List.map_cons, List.nodup_cons, List.mem_cons] at hnd
    by_cases h1 : p1.1 = i <;> by_cases h2 : p2.1 = i <;>
      simp [alookup, h1, h2]
    exact absurd (h1.trans h2.symm) (fun hh => hnd.1 (Or.inl hh.symm))
  | trans hp1 hp2 ih1 ih2 =>
    rename_i l1 l2 l3
    have hnd2 : (l2.map Prod.fst).Nodup := by
      exact (hp1.map Prod.fst).nodup_iff.mp hnd
    exact (ih1 hnd).trans (ih2 hnd2)

/-- A Boolean any is invariant under permutation. -/
theorem perm_any {α : Type} {l1 l2 : List α} (hp : l1.Perm l2) (f : α → Bool) :
    l1.any f = l2.any f := by
  rcases h1 : l1.any f with _ | _ <;> rcases h2 : l2.any f with _ | _ <;>
    try rfl
  · simp only [List.any_eq_true] at h2
    obtain ⟨x, hx, hfx⟩ := h2
    have : l1.any f = true := List.any_eq_true.mpr ⟨x, hp.mem_iff.mpr hx, hfx⟩
    rw [h1] at this
    exact absurd this (by simp)
  · simp only [List.any_eq_true] at h1
    obtain ⟨x, hx, hfx⟩ := h1
    have : l2.any f = true := List.any_eq_true.mpr ⟨x, hp.mem_iff.mp hx, hfx⟩
    rw [h2] at this
    exact absurd this (by simp)

/-- Every list equals itself with index 0 overwritten by a suitable value. -/
theorem exists_set_zero_self {α : Type} (x0 : α) (l : List α) :
    ∃ x, l = l.set 0 x := by
  cases l with
  | nil => exact ⟨x0, rfl⟩
  | cons a t => exact ⟨a, rfl⟩

/-! ## Claim theorems: challenge derivation -/

/-- Claim C9: both challenge derivers are the deterministic function hashing
R.compressed, then the compressed public key, then the message, reducing the
digest into the scalar field of the respective curve; they are the same
derivation core instantiated with the two scalar reductions, so they differ
only in which reduction is applied to the digest. -/
theorem deriveChallenge_spec {P : Type} (digest : List ℕ → List ℕ)
    (enc : P → List ℕ) (msg : List ℕ) (pubKey r : P) :
    Ed25519DeriveChallenge digest enc msg pubKey r
        = scalarEd25519SetBytesWide (digest (enc r ++ enc pubKey ++ msg))
      ∧ Secp256k1DeriveChallenge digest enc msg pubKey r
        = scalarK256SetBytesWide (digest (enc r ++ enc pubKey ++ msg))
      ∧ Ed25519DeriveChallenge digest enc msg pubKey r
        = deriveChallengeCore scalarEd25519SetBytesWide digest enc msg pubKey r
      ∧ Secp256k1DeriveChallenge digest enc msg pubKey r
        = deriveChallengeCore scalarK256SetBytesWide digest enc msg pubKey r := by
  refine ⟨?_, ?_, ?_, ?_⟩ <;>
    simp [Ed25519DeriveChallenge, Secp256k1DeriveChallenge, deriveChallengeCore]

/-! ## Claim theorems: NewFeldman validation -/

/-- Whether an Except value is a success. -/
def exceptOk {ε α : Type} : Except ε α → Bool
  | .ok _ => true
  | .error _ => false

instance {ε α : Type} [DecidableEq ε] [DecidableEq α] :
    DecidableEq (Except ε α) := fun x y =>
  match x, y with
  | .ok a, .ok b =>
    if h : a = b then isTrue (by rw [h])
    else isFalse (by intro hh; cases hh; exact h rfl)
  | .error a, .error b =>
    if h : a = b then isTrue (by rw [h])
    else isFalse (by intro hh; cases hh; exact h rfl)
  | .ok _, .error _ => isFalse (by intro hh; cases hh)
  | .error _, .ok _ => isFalse (by intro hh; cases hh)

/-- Claim C7: NewFeldman fails exactly on threshold below 2, limit below the
threshold, limit above 255, a nil curve, or explicit identifiers whose count
differs from the limit or which contain a zero or a duplicate; on success
with no identifiers supplied the identifier list is 1, 2, ..., limit. -/
theorem NewFeldman_spec (t n : ℕ) (curve : Option Unit) (IDs : List ℕ) :
    (exceptOk (NewFeldman t n curve IDs) = false ↔
      t < 2 ∨ n < t ∨ 255 < n ∨ curve = none ∨
        (IDs ≠ [] ∧ (IDs.length ≠ n ∨ 0 ∈ IDs ∨ ¬ IDs.Nodup)))
    ∧ ∀ f, NewFeldman t n curve [] = .ok f → f.IDs = List.range' 1 n := by
  constructor
  · unfold NewFeldman
    split_ifs with h1 h2 h3 h4 h5 h6 h7 h8
    · simp [exceptOk]; tauto
    · simp [exceptOk]; tauto
    · simp [exceptOk]; tauto
    · simp [exceptOk]; tauto
    · simp [exceptOk]; tauto
    · simp [exceptOk]; tauto
    · simp [exceptOk]; tauto
    all_goals
      simp only [exceptOk]
      constructor
      · intro h
        exact absurd h (by decide)
      · intro h
        rcases h with h | h | h | h | ⟨hne, h⟩
        · exact absurd h h2
        · exact absurd h h1
        · exact absurd h h3
        · exact absurd h h4
        · rcases h with h | h | h
          · exact absurd ⟨hne, h⟩ h5
          · exact absurd ⟨hne, h⟩ h6
          · exact absurd ⟨hne, h⟩ h7
  · intro f hf
    unfold NewFeldman at hf
    split_ifs at hf <;> simp_all
    rw [← hf]

/-- Witness for claim C7 at the concrete configuration (2, 3): construction
succeeds and the defaulted identifier list is 1, 2, 3. -/
theorem NewFeldman_spec_witness :
    exceptOk (NewFeldman 2 3 (some ()) []) = true
      ∧ (Feldman.mk 2 3 (some ()) [1, 2, 3]).IDs = List.range' 1 3 := by
  constructor
  · have h := (NewFeldman_spec 2 3 (some ()) []).1
    rcases hE : exceptOk (NewFeldman 2 3 (some ()) []) with _ | _
    · exact absurd (h.mp hE) (by decide)
    · rfl
  · have h := (NewFeldman_spec 2 3 (some ()) []).2 ⟨2, 3, some (), [1, 2, 3]⟩
      (by decide)
    exact h

/-! ## Claim theorems: identifier sampling -/

/-- The invariants of the collection loop: starting from a duplicate-free
accumulator of in-range values no longer than n, a successful run returns a
duplicate-free list of exactly n values in [mn, mn + width). -/
theorem sampleLoop_spec (mn width n : ℕ) (stream : ℕ → ℕ) :
    ∀ (fuel k : ℕ) (acc l : List ℕ),
      sampleLoop mn width n stream fuel k acc = some l →
      acc.Nodup → (∀ x ∈ acc, mn ≤ x ∧ x < mn + width) → acc.length ≤ n →
      (0 < width ∨ acc.length = n) →
      l.Nodup ∧ (∀ x ∈ l, mn ≤ x ∧ x < mn + width) ∧ l.length = n := by
  intro fuel
  induction fuel with
  | zero =>
    intro k acc l hrun hnd hrange hlen _
    rw [sampleLoop] at hrun
    by_cases hc : n ≤ acc.length
    · rw [if_pos hc] at hrun
      cases hrun
      exact ⟨hnd, hrange, le_antisymm hlen hc⟩
    · rw [if_neg hc] at hrun
      cases hrun
  | succ fuel ih =>
    intro k acc l hrun hnd hrange hlen hw
    rw [sampleLoop] at hrun
    by_cases hc : n ≤ acc.length
    · rw [if_pos hc] at hrun
      cases hrun
      exact ⟨hnd, hrange, le_antisymm hlen hc⟩
    · rw [if_neg hc] at hrun
      have hwpos : 0 < width := by
        rcases hw with h | h
        · exact h
        · omega
      by_cases hmem : mn + stream k % width ∈ acc
      · rw [if_pos hmem] at hrun
        exact ih (k + 1) acc l hrun hnd hrange hlen (Or.inl hwpos)
      · rw [if_neg hmem] at hrun
        refine ih (k + 1) _ l hrun ?_ ?_ ?_ (Or.inl hwpos)
        · simp [List.nodup_append, hnd, hmem]
        · intro x hx
          rcases List.mem_append.mp hx with hx | hx
          · exact hrange x hx
          · simp only [List.mem_singleton] at hx
            subst hx
            have := Nat.mod_lt (stream k) hwpos
            omega
        · simp only [List.length_append, List.length_singleton]
          omega

/-- Claim C8 (amended): SampleUniqueUint32s errors exactly when n exceeds
max - min; a successful return delivers exactly n values, each the uint32
truncation (mod 2^32) of one of n pairwise-distinct integers drawn from
[min, max); whenever max is at most 2^32 the returned values are themselves
pairwise distinct, each lies in [min, max), and each is at least 1 whenever
additionally min is at least 1. -/
theorem SampleUniqueUint32s_amended (n mn mx fuel : ℕ) (stream : ℕ → ℕ) :
    (SampleUniqueUint32s n mn mx fuel stream = some .err ↔
      (mx : ℤ) - (mn : ℤ) < (n : ℤ))
    ∧ ∀ l, SampleUniqueUint32s n mn mx fuel stream = some (.ok l) →
        l.length = n
        ∧ (∃ raw : List ℕ, raw.Nodup ∧ (∀ x ∈ raw, mn ≤ x ∧ x < mx)
            ∧ raw.length = n ∧ l = raw.map (fun v => v % 2 ^ 32))
        ∧ (mx ≤ 2 ^ 32 →
            l.Nodup ∧ (∀ x ∈ l, mn ≤ x ∧ x < mx)
              ∧ (1 ≤ mn → ∀ x ∈ l, 1 ≤ x)) := by
  constructor
  · unfold SampleUniqueUint32s
    by_cases hc : (n : ℤ) > (mx : ℤ) - (mn : ℤ)
    · rw [if_pos hc]
      simpa using hc
    · rw [if_neg hc]
      constructor
      · intro h
        rcases hrun : sampleLoop mn (mx - mn) n stream fuel 0 [] with _ | l <;>
          simp [hrun] at h
      · intro h
        exact absurd h hc
  · intro l h
    unfold SampleUniqueUint32s at h
    by_cases hc : (n : ℤ) > (mx : ℤ) - (mn : ℤ)
    · rw [if_pos hc] at h
      simp at h
    · rw [if_neg hc] at h
      rcases hrun : sampleLoop mn (mx - mn) n stream fuel 0 [] with _ | raw
      · rw [hrun] at h
        simp at h
      · rw [hrun] at h
        simp only [Option.map_some', Option.some_inj] at h
        have hl : l = raw.map (fun v => v % 2 ^ 32) := by
          cases h
          rfl
        subst hl
        have hmn : mn ≤ mx := by omega
        have hside : 0 < mx - mn ∨ ([] : List ℕ).length = n := by
          rcases Nat.eq_zero_or_pos n with h0 | h0
          · right
            simpa using h0.symm
          · left
            omega
        obtain ⟨hnd, hrange, hlen⟩ :=
          sampleLoop_spec mn (mx - mn) n stream fuel 0 [] raw hrun
            List.nodup_nil (by simp) (by simp) hside
        have hrange' : ∀ x ∈ raw, mn ≤ x ∧ x < mx := by
          intro x hx
          have := hrange x hx
          omega
        refine ⟨by simp [hlen], ⟨raw, hnd, hrange', hlen, rfl⟩, ?_⟩
        intro h32
        have hid : raw.map (fun v => v % 2 ^ 32) = raw := by
          have h1 : raw.map (fun v => v % 2 ^ 32) = raw.map id :=
            List.map_congr_left (fun a ha =>
              Nat.mod_eq_of_lt (by
                have := (hrange' a ha).2
                omega))
          rw [h1, List.map_id]
        rw [hid]
        refine ⟨hnd, hrange', ?_⟩
        intro h1 x hx
        have := hrange' x hx
        omega

/-- The all-zeroes randomness stream. -/
def zeroStream : ℕ → ℕ := fun _ => 0

/-- The identity randomness stream. -/
def idStream : ℕ → ℕ := fun k => k

/-- Counterexample to claim C8 as stated: sampling one identifier from
[0, 1) succeeds and returns the value 0, which is not at least 1 — the code
never enforces the claimed lower bound of 1; and sampling one identifier
from [2^32, 2^32 + 1) succeeds but the uint32 truncation wraps the sampled
integer to 0, outside the claimed range [min, max). -/
theorem SampleUniqueUint32s_cex :
    (SampleUniqueUint32s 1 0 1 2 zeroStream = some (.ok [0])
      ∧ (0 : ℕ) ∈ [0] ∧ ¬ (1 : ℕ) ≤ 0)
    ∧ (SampleUniqueUint32s 1 (2 ^ 32) (2 ^ 32 + 1) 2 zeroStream
        = some (.ok [0])
      ∧ ¬ (2 ^ 32 ≤ (0 : ℕ))) := by decide

/-- Witness for claim C8 (amended) at the concrete call sampling two
identifiers from [1, 5) with the identity stream. -/
theorem SampleUniqueUint32s_amended_witness :
    [1, 2].Nodup ∧ ((1 : ℕ) ≤ 1 ∧ (1 : ℕ) < 5) ∧ ((1 : ℕ) ≤ 2 ∧ (2 : ℕ) < 5)
      ∧ (1 : ℕ) ≤ 1 ∧ (1 : ℕ) ≤ 2 := by
  have h := (SampleUniqueUint32s_amended 2 1 5 5 idStream).2 [1, 2] (by decide)
  have h32 := h.2.2 (by decide)
  exact ⟨h32.1, h32.2.1 1 (by decide), h32.2.1 2 (by decide),
    h32.2.2 (by decide) 1 (by decide), h32.2.2 (by decide) 2 (by decide)⟩

/-! ## Claim theorems: Feldman share validity -/

theorem polyEval_cons (q : ℕ) (a : ZMod q) (cs : List (ZMod q)) (x : ZMod q) :
    polyEval q (a :: cs) x = a + polyEval q cs x * x := rfl

/-- The iterative accumulation inside Verify computes the Horner value of
the remaining commitments. -/
theorem verifyRhsFold_snd (q : ℕ) (x : ZMod q) :
    ∀ (cs : List (ZMod q)) (st : ZMod q × ZMod q),
      (verifyRhsFold q x cs st).2 = st.2 + st.1 * x * polyEval q cs x := by
  intro cs
  induction cs with
  | nil =>
    intro st
    simp [verifyRhsFold, polyEval]
  | cons c cs ih =>
    intro st
    simp only [verifyRhsFold, List.foldl_cons] at ih ⊢
    rw [ih]
    simp only [polyEval_cons]
    ring

/-- A Feldman configuration built by NewFeldman has threshold at least 2 and
only non-zero identifiers. -/
theorem NewFeldman_ok_props {t n : ℕ} {c : Option Unit} {ids : List ℕ}
    {f : Feldman} (hf : NewFeldman t n c ids = .ok f) :
    2 ≤ f.Threshold ∧ ∀ id ∈ f.IDs, id ≠ 0 := by
  unfold NewFeldman at hf
  split_ifs at hf with h1 h2 h3 h4 h5 h6 h7 h8 <;>
    try exact Except.noConfusion hf
  · cases hf
    refine ⟨show 2 ≤ t by omega, ?_⟩
    intro id hid
    simp only [if_pos h8] at hid
    rw [List.mem_range'_1] at hid
    omega
  · cases hf
    refine ⟨show 2 ≤ t by omega, ?_⟩
    intro id hid
    simp only [if_neg h8] at hid
    intro h0
    subst h0
    exact h6 ⟨h8, hid⟩

/-- Unfolding of Verify at a non-empty commitment vector when validation
succeeds. -/
theorem Verify_cons_ok (q : ℕ) (c0 : ZMod q) (rest : List (ZMod q))
    (share : ShamirShare) (hval : shamirShareValidate q share = .ok ()) :
    FeldmanVerifier.Verify q ⟨c0 :: rest⟩ share
      = if ((share.Value : ℕ) : ZMod q)
            = (verifyRhsFold q ((share.Id : ℕ) : ZMod q) rest (1, c0)).2
        then .ok () else .error .notEqual := by
  unfold FeldmanVerifier.Verify
  rw [hval]

/-- Claim C2: every share produced by a successful Feldman.Split from a
validly constructed Feldman configuration verifies under the returned
verifier: g * value equals the commitment polynomial evaluated at the share
identifier. -/
theorem Feldman_Split_shares_verify (q : ℕ) [NeZero q] (t n : ℕ)
    (c : Option Unit) (ids : List ℕ) (f : Feldman) (secret : ZMod q)
    (rng : ℕ → ZMod q) (ver : FeldmanVerifier q)
    (out : List (ℕ × ShamirShare))
    (hf : NewFeldman t n c ids = .ok f) (hsec : secret ≠ 0)
    (hsplit : Feldman.Split q f secret rng = .ok (ver, out)) :
    ∀ p ∈ out, FeldmanVerifier.Verify q ver p.2 = .ok () := by
  obtain ⟨hT, hids⟩ := NewFeldman_ok_props hf
  unfold Feldman.Split at hsplit
  rw [if_neg hsec] at hsplit
  cases hsplit
  intro p hp
  simp only [List.mem_map] at hp
  obtain ⟨id, hid, hpe⟩ := hp
  subst hpe
  have hlen : (polynomialInit q secret f.Threshold rng).length
      = f.Threshold := by
    simp only [polynomialInit, List.length_cons, List.length_map,
      List.length_range]
    omega
  have htake : (polynomialInit q secret f.Threshold rng).take f.Threshold
      = polynomialInit q secret f.Threshold rng :=
    List.take_of_length_le (le_of_eq hlen)
  have hpoly : polynomialInit q secret f.Threshold rng
      = secret :: (List.range (f.Threshold - 1)).map rng := rfl
  have hC : ((polynomialInit q secret f.Threshold rng).take f.Threshold).map
        (fun a => a)
      = secret :: (List.range (f.Threshold - 1)).map rng := by
    rw [htake, List.map_id', hpoly]
  have hval : shamirShareValidate q
      (ShamirShare.mk id (polyEval q (polynomialInit q secret f.Threshold rng)
        ((id : ℕ) : ZMod q)).val) = .ok () := by
    unfold shamirShareValidate
    rw [if_neg (hids id hid), if_neg (not_le.mpr (ZMod.val_lt _))]
  have hcast : (((polyEval q (polynomialInit q secret f.Threshold rng)
      ((id : ℕ) : ZMod q)).val : ℕ) : ZMod q)
      = polyEval q (polynomialInit q secret f.Threshold rng)
        ((id : ℕ) : ZMod q) := by
    rw [ZMod.natCast_val, ZMod.cast_id]
  have hcond : (((ShamirShare.mk id
        (polyEval q (polynomialInit q secret f.Threshold rng)
          ((id : ℕ) : ZMod q)).val).Value : ℕ) : ZMod q)
      = (verifyRhsFold q
          (((ShamirShare.mk id (polyEval q
            (polynomialInit q secret f.Threshold rng)
              ((id : ℕ) : ZMod q)).val).Id : ℕ) : ZMod q)
          ((List.range (f.Threshold - 1)).map rng) (1, secret)).2 := by
    rw [verifyRhsFold_snd]
    show (((polyEval q (polynomialInit q secret f.Threshold rng)
        ((id : ℕ) : ZMod q)).val : ℕ) : ZMod q) = _
    rw [hcast, hpoly, polyEval_cons]
    ring
  show FeldmanVerifier.Verify q
    ⟨((polynomialInit q secret f.Threshold rng).take f.Threshold).map
      (fun a => a)⟩ _ = _
  rw [hC, Verify_cons_ok q secret _ _ hval, if_pos hcond]

/-- Witness for claim C2 over ZMod 11 with the (2, 3) default configuration,
the secret 3 and a constant randomness stream: the share of identifier 2
verifies. -/
theorem Feldman_Split_shares_verify_witness :
    FeldmanVerifier.Verify 11 ⟨[3, 5]⟩ (ShamirShare.mk 2 2) = .ok () := by
  have h := Feldman_Split_shares_verify 11 2 3 (some ()) []
    ⟨2, 3, some (), [1, 2, 3]⟩ 3 (fun _ => 5) ⟨[3, 5]⟩
    [(1, ShamirShare.mk 1 8), (2, ShamirShare.mk 2 2), (3, ShamirShare.mk 3 7)]
    (by decide) (by decide) (by decide)
  exact h (2, ShamirShare.mk 2 2) (by decide)

/-! ## Claim theorems: the ResharingRound2 broadcast-length check -/

/-- Claim C3 (code bug): with a new-committee threshold of 2, a broadcast
whose As vector has length 2 — exactly what ResharingRound1 produces — is
rejected by the invalid-broadcast-data check, while a vector of length 1
(threshold minus one) passes that check, after which the function faults
indexing As[1] in the new-commitments loop.  The spec requires As length
equal to the new threshold. -/
theorem ResharingRound2_As_length_check_bug :
    (ResharingRound2 11 ⟨5, 2, 6, none, none, none, []⟩ 2
        [(1, some ⟨[6, 7], [4, 2]⟩), (2, some ⟨[6, 9], [4, 2]⟩)]
        [(1, some ⟨5, 0⟩), (2, some ⟨5, 0⟩)]).1
      = .err .invalidBroadcastData
    ∧ (ResharingRound2 11 ⟨5, 2, 6, none, none, none, []⟩ 2
        [(1, some ⟨[0], [3, 0]⟩), (2, some ⟨[0], [3, 0]⟩)]
        [(1, some ⟨5, 3⟩), (2, some ⟨5, 3⟩)]).1
      = .crash (.indexOutOfRange 1 1) := by decide

/-- Claim C4 (code bug): a fully honest resharing instance — old polynomial
4 + 2x over ZMod 11 with commitments [4, 2], old shares 6 and 8, sender
sub-polynomials 6 + x and 8 + 2x of the new threshold 2, sub-shares 7 and 10
for the new participant 1 — is rejected with the invalid-broadcast-data
error, so no successful run exists to establish the share-commitment
consistency invariant. -/
theorem ResharingRound2_honest_run_rejected :
    (ResharingRound2 11 ⟨1, 2, 1, none, none, none, []⟩ 2
        [(1, some ⟨[6, 1], [4, 2]⟩), (2, some ⟨[8, 2], [4, 2]⟩)]
        [(1, some ⟨1, 7⟩), (2, some ⟨1, 10⟩)]).1
      = .err .invalidBroadcastData := by decide

/-! ## Claim theorems: in-place mutation of the broadcast As[0] entries -/

/-- The broadcast map view of a loop outcome. -/
def LoopOut.outB {q : ℕ} : LoopOut q → List (ℕ × Option (ResharingBcast q))
  | .fail _ b => b
  | .crashed _ b => b
  | .done b _ _ => b

/-- One broadcast entry after the loop: either untouched, or its As[0]
overwritten with the value derived from its own PHIs at the sender id, all
other elements and the PHIs unchanged. -/
def overwrittenEntry (q : ℕ) (i : ℕ) (e eNew : Option (ResharingBcast q)) :
    Prop :=
  eNew = e ∨ ∃ d A0, e = some d ∧
    EvalCommitmentPoly q d.PHIs ((i : ℕ) : ZMod q) = some A0 ∧
    eNew = some (ResharingBcast.mk (d.As.set 0 A0) d.PHIs)

/-- The broadcast map after the call relates entrywise to the one passed in:
same keys in the same order, each value untouched or As[0]-overwritten. -/
def bcastEvolves (q : ℕ) (b bNew : List (ℕ × Option (ResharingBcast q))) :
    Prop :=
  List.Forall₂ (fun p pNew => pNew.1 = p.1 ∧ overwrittenEntry q p.1 p.2 pNew.2)
    b bNew

theorem overwrittenEntry_trans {q i : ℕ} {e e' e'' : Option (ResharingBcast q)}
    (h1 : overwrittenEntry q i e e') (h2 : overwrittenEntry q i e' e'') :
    overwrittenEntry q i e e'' := by
  rcases h2 with h2 | ⟨d', A0', hd', hA0', he''⟩
  · subst h2
    exact h1
  · rcases h1 with h1 | ⟨d, A0, hd, hA0, he'⟩
    · subst h1
      exact Or.inr ⟨d', A0', hd', hA0', he''⟩
    · subst hd
      have hdd : d' = ResharingBcast.mk (d.As.set 0 A0) d.PHIs := by
        rw [he'] at hd'
        exact (Option.some.inj hd').symm
      subst hdd
      refine Or.inr ⟨d, A0', rfl, hA0', ?_⟩
      rw [he'']
      simp [List.set_set]

theorem bcastEvolves_refl (q : ℕ) (b : List (ℕ × Option (ResharingBcast q))) :
    bcastEvolves q b b := by
  rw [bcastEvolves, List.forall₂_same]
  intro p _
  exact ⟨rfl, Or.inl rfl⟩

theorem bcastEvolves_trans {q : ℕ}
    {b b' b'' : List (ℕ × Option (ResharingBcast q))}
    (h1 : bcastEvolves q b b') (h2 : bcastEvolves q b' b'') :
    bcastEvolves q b b'' := by
  induction h1 generalizing b'' with
  | nil =>
    cases h2
    exact List.Forall₂.nil
  | cons hpq hrest ih =>
    rename_i p p' l l'
    cases h2 with
    | cons hpq' hrest' =>
      refine List.Forall₂.cons ⟨?_, ?_⟩ (ih hrest')
      · exact hpq'.1.trans hpq.1
      · have hkey : p'.1 = p.1 := hpq.1
        exact overwrittenEntry_trans hpq.2 (hkey ▸ hpq'.2)

/-- Updating a key that is absent leaves the association list unchanged. -/
theorem aupdate_not_mem {α : Type} {l : List (ℕ × α)} {i : ℕ} (v : α)
    (h : i ∉ l.map Prod.fst) : aupdate l i v = l := by
  induction l with
  | nil => rfl
  | cons p rest ih =>
    obtain ⟨a, b⟩ := p
    simp only [List.map_cons, List.mem_cons, not_or] at h
    rw [aupdate_cons, if_neg (fun hh => h.1 hh.symm), ih h.2]

/-- The single-step overwrite performed for one sender evolves the map. -/
theorem aupdate_evolves {q : ℕ} {acc : List (ℕ × Option (ResharingBcast q))}
    {i : ℕ} {d : ResharingBcast q} {A0 : ZMod q}
    (hnd : (acc.map Prod.fst).Nodup)
    (hl : alookup acc i = some (some d))
    (hA0 : EvalCommitmentPoly q d.PHIs ((i : ℕ) : ZMod q) = some A0) :
    bcastEvolves q acc
      (aupdate acc i (some (ResharingBcast.mk (d.As.set 0 A0) d.PHIs))) := by
  induction acc with
  | nil => exact List.Forall₂.nil
  | cons p rest ih =>
    obtain ⟨a, e⟩ := p
    simp only [List.map_cons, List.nodup_cons] at hnd
    rw [aupdate_cons]
    by_cases ha : a = i
    · subst ha
      rw [if_pos rfl]
      rw [alookup, if_pos (show (a, e).1 = a from rfl)] at hl
      have he : e = some d := Option.some.inj hl
      subst he
      have hrest : aupdate rest a
          (some (ResharingBcast.mk (d.As.set 0 A0) d.PHIs)) = rest :=
        aupdate_not_mem _ hnd.1
      rw [hrest]
      refine List.Forall₂.cons ⟨rfl, ?_⟩ (bcastEvolves_refl q rest)
      exact Or.inr ⟨d, A0, rfl, hA0, rfl⟩
    · rw [if_neg ha]
      rw [alookup, if_neg (show ¬ (a, e).1 = i by simpa using ha)] at hl
      exact List.Forall₂.cons ⟨rfl, Or.inl rfl⟩ (ih hnd.2 hl)

/-- Inversion of the loop body in the case where the sub-share verification
rejects after the overwrite. -/
theorem senderEval_failUpd_inv {q dpId i0 : ℕ}
    {osh : Option (Option ShamirShare)}
    {obd : Option (Option (ResharingBcast q))} {phi0 : Option (ZMod q)}
    {e : FrostError} {data : ResharingBcast q} {A0 : ZMod q}
    (h : senderEval q dpId i0 osh obd phi0 = .failUpd e data A0) :
    obd = some (some data)
      ∧ EvalCommitmentPoly q data.PHIs ((i0 : ℕ) : ZMod q) = some A0
      ∧ e = .invalidSubShare i0 dpId ∧ data.As ≠ [] := by
  unfold senderEval at h
  repeat' split at h
  all_goals cases h
  all_goals refine ⟨rfl, by assumption, rfl, ?_⟩
  all_goals simp_all

/-- Inversion of the loop body in the crash-after-overwrite case. -/
theorem senderEval_crashUpd_inv {q dpId i0 : ℕ}
    {osh : Option (Option ShamirShare)}
    {obd : Option (Option (ResharingBcast q))} {phi0 : Option (ZMod q)}
    {c : Crash} {data : ResharingBcast q} {A0 : ZMod q}
    (h : senderEval q dpId i0 osh obd phi0 = .crashUpd c data A0) :
    obd = some (some data)
      ∧ EvalCommitmentPoly q data.PHIs ((i0 : ℕ) : ZMod q) = some A0 := by
  unfold senderEval at h
  repeat' split at h
  all_goals cases h
  all_goals exact ⟨rfl, by assumption⟩

/-- Inversion of the loop body in the pass case. -/
theorem senderEval_pass_inv {q dpId i0 : ℕ}
    {osh : Option (Option ShamirShare)}
    {obd : Option (Option (ResharingBcast q))} {phi0 : Option (ZMod q)}
    {gji p0 : ZMod q} {data : ResharingBcast q} {A0 : ZMod q}
    (h : senderEval q dpId i0 osh obd phi0 = .pass gji p0 data A0) :
    obd = some (some data)
      ∧ EvalCommitmentPoly q data.PHIs ((i0 : ℕ) : ZMod q) = some A0
      ∧ data.As ≠ []
      ∧ (∃ share, osh = some (some share)
          ∧ scalarSetBytes q share.Value = some gji)
      ∧ (if phi0.isSome then phi0 else data.PHIs.get? 0) = some p0
      ∧ EvalCommitmentPoly q (data.As.set 0 A0) ((dpId : ℕ) : ZMod q)
          = some gji := by
  unfold senderEval at h
  repeat' split at h
  all_goals cases h
  all_goals
    refine ⟨rfl, by assumption, ?_, ⟨_, rfl, by assumption⟩, by assumption,
      ?_⟩
  all_goals simp_all

/-- The verification loop only evolves the broadcast map by per-sender
As[0] overwrites. -/
theorem processSenders_evolves (q dpId : ℕ)
    (p2p : List (ℕ × Option ShamirShare)) :
    ∀ (pending : List ℕ) (acc : List (ℕ × Option (ResharingBcast q)))
      (gj : List (ℕ × ZMod q)) (phi0 : Option (ZMod q)),
      (acc.map Prod.fst).Nodup →
      bcastEvolves q acc (processSenders q dpId p2p pending acc gj phi0).outB
    := by
  intro pending
  induction pending with
  | nil =>
    intro acc gj phi0 _
    exact bcastEvolves_refl q acc
  | cons i0 rest ih =>
    intro acc gj phi0 hnd
    rw [processSenders]
    rcases hse : senderEval q dpId i0 (alookup p2p i0) (alookup acc i0) phi0
      with e | c | ⟨e, data, A0⟩ | ⟨c, data, A0⟩ | ⟨gji, p0, data, A0⟩
    · exact bcastEvolves_refl q acc
    · exact bcastEvolves_refl q acc
    · obtain ⟨hobd, hA0, _, _⟩ := senderEval_failUpd_inv hse
      exact aupdate_evolves hnd hobd hA0
    · obtain ⟨hobd, hA0⟩ := senderEval_crashUpd_inv hse
      exact aupdate_evolves hnd hobd hA0
    · obtain ⟨hobd, hA0, _, _, _, _⟩ := senderEval_pass_inv hse
      refine bcastEvolves_trans (aupdate_evolves hnd hobd hA0) (ih _ _ _ ?_)
      rw [aupdate_map_fst]
      exact hnd

/-- Inversion of the loop body in the fail-without-overwrite case: the only
such error return is the scalar-decoding failure. -/
theorem senderEval_failNoUpd_inv {q dpId i0 : ℕ}
    {osh : Option (Option ShamirShare)}
    {obd : Option (Option (ResharingBcast q))} {phi0 : Option (ZMod q)}
    {e : FrostError}
    (h : senderEval q dpId i0 osh obd phi0 = .failNoUpd e) :
    e = .scalarDecodeError := by
  unfold senderEval at h
  repeat' split at h
  all_goals cases h
  all_goals rfl

/-- When the loop rejects the sub-share of sender i, the broadcast map it
leaves behind holds, under i, the original entry with As[0] overwritten by
the value derived from its PHIs at i. -/
theorem processSenders_fail_subshare (q dpId : ℕ)
    (p2p : List (ℕ × Option ShamirShare))
    (b0 : List (ℕ × Option (ResharingBcast q))) :
    ∀ (pending : List ℕ) (acc : List (ℕ × Option (ResharingBcast q)))
      (gj : List (ℕ × ZMod q)) (phi0 : Option (ZMod q)),
      (∀ k ∈ pending, alookup acc k = alookup b0 k) →
      pending.Nodup →
      ∀ i j out,
        processSenders q dpId p2p pending acc gj phi0
          = .fail (.invalidSubShare i j) out →
        ∃ d A0, alookup b0 i = some (some d) ∧
          EvalCommitmentPoly q d.PHIs ((i : ℕ) : ZMod q) = some A0 ∧
          alookup out i
            = some (some (ResharingBcast.mk (d.As.set 0 A0) d.PHIs)) := by
  intro pending
  induction pending with
  | nil =>
    intro acc gj phi0 _ _ i j out h
    rw [processSenders] at h
    cases h
  | cons i0 rest ih =>
    intro acc gj phi0 hpend hnd i j out h
    rw [processSenders] at h
    rcases hse : senderEval q dpId i0 (alookup p2p i0) (alookup acc i0) phi0
      with e | c | ⟨e, data, A0⟩ | ⟨c, data, A0⟩ | ⟨gji, p0, data, A0⟩
    · rw [hse] at h
      have he := senderEval_failNoUpd_inv hse
      subst he
      cases h
    · rw [hse] at h
      cases h
    · rw [hse] at h
      obtain ⟨hobd, hA0, he, _⟩ := senderEval_failUpd_inv hse
      subst he
      have hinj := h
      rw [LoopOut.fail.injEq, FrostError.invalidSubShare.injEq] at hinj
      obtain ⟨⟨hi, hj⟩, hout⟩ := hinj
      subst hi
      subst hout
      refine ⟨data, A0, ?_, hA0, ?_⟩
      · rw [← hpend i0 (List.mem_cons_self _ _)]
        exact hobd
      · exact alookup_aupdate_self ⟨_, hobd⟩ _
    · rw [hse] at h
      cases h
    · rw [hse] at h
      refine ih _ _ _ ?_ (List.nodup_cons.mp hnd).2 i j out h
      intro k hk
      have hki : k ≠ i0 := by
        intro hkk
        subst hkk
        exact (List.nodup_cons.mp hnd).1 hk
      rw [alookup_aupdate_ne _ _ hki]
      exact hpend k (List.mem_cons_of_mem _ hk)

/-- The post-loop phase never reports an invalid-sub-share error. -/
theorem postProcess_ne_subshare (q : ℕ) (dp : DkgParticipant q) (oldT : ℕ)
    (S : List ℕ) (acc : List (ℕ × Option (ResharingBcast q)))
    (gj : List (ℕ × ZMod q)) (phi0 : Option (ZMod q)) (i j : ℕ) :
    postProcess q dp oldT S acc gj phi0 ≠ .err (.invalidSubShare i j) := by
  intro hcon
  unfold postProcess at hcon
  repeat' split at hcon
  all_goals try simp_all
  all_goals repeat' split at hcon
  all_goals simp_all

/-- The broadcast map returned by ResharingRound2 is either the input or the
one left behind by the verification loop. -/
theorem ResharingRound2_snd (q : ℕ) (dp : DkgParticipant q) (oldT : ℕ)
    (bcast : List (ℕ × Option (ResharingBcast q)))
    (p2p : List (ℕ × Option ShamirShare)) :
    (ResharingRound2 q dp oldT bcast p2p).2 = bcast ∨
    (ResharingRound2 q dp oldT bcast p2p).2
      = (processSenders q dp.Id p2p (bcast.map Prod.fst) bcast [] none).outB
    := by
  simp only [ResharingRound2]
  split_ifs <;> try exact Or.inl rfl
  rcases hps : processSenders q dp.Id p2p (bcast.map Prod.fst) bcast [] none
    with ⟨e, acc⟩ | ⟨c, acc⟩ | ⟨acc, gj, phi0⟩
  · exact Or.inr rfl
  · exact Or.inr rfl
  · exact Or.inr rfl

/-- An invalid-sub-share error return can only come out of the verification
loop, which then also delivers the final broadcast map. -/
theorem ResharingRound2_fst_subshare (q : ℕ) (dp : DkgParticipant q)
    (oldT : ℕ) (bcast : List (ℕ × Option (ResharingBcast q)))
    (p2p : List (ℕ × Option ShamirShare)) (i j : ℕ)
    (h : (ResharingRound2 q dp oldT bcast p2p).1
      = .err (.invalidSubShare i j)) :
    processSenders q dp.Id p2p (bcast.map Prod.fst) bcast [] none
      = .fail (.invalidSubShare i j) (ResharingRound2 q dp oldT bcast p2p).2
    := by
  simp only [ResharingRound2] at h ⊢
  split_ifs at h ⊢ <;> try exact absurd h (by simp)
  rcases hps : processSenders q dp.Id p2p (bcast.map Prod.fst) bcast [] none
    with ⟨e, acc⟩ | ⟨c, acc⟩ | ⟨acc, gj, phi0⟩ <;> rw [hps] at h
  · have he : e = FrostError.invalidSubShare i j := by
      simpa using h
    subst he
    rfl
  · exact absurd h (by simp)
  · exact absurd
      (show postProcess q dp oldT (List.map Prod.fst bcast) acc gj phi0
        = RunResult.err (.invalidSubShare i j) from h)
      (postProcess_ne_subshare q dp oldT _ acc gj phi0 i j)

/-- The set of senders whose As[0] the verification loop overwrites: it
mirrors the loop (lines 75-102), collecting every sender whose body reaches
the overwrite of lines 93-94 — every passed sender, together with the
stopping sender when the loop stops after performing its overwrite. -/
def overwrittenSenders (q dpId : ℕ)
    (p2p : List (ℕ × Option ShamirShare)) :
    List ℕ → List (ℕ × Option (ResharingBcast q)) → Option (ZMod q) → List ℕ
  | [], _, _ => []
  | i :: pending, acc, phi0 =>
    match senderEval q dpId i (alookup p2p i) (alookup acc i) phi0 with
    | .failNoUpd _ => []
    | .crashNoUpd _ => []
    | .failUpd _ _ _ => [i]
    | .crashUpd _ _ _ => [i]
    | .pass _ p0 data A0 =>
      i :: overwrittenSenders q dpId p2p pending
        (aupdate acc i (some ⟨data.As.set 0 A0, data.PHIs⟩)) (some p0)

/-- Sender i's entry is definitely overwritten: the final map holds, under
i, the original entry with exactly As[0] replaced by
EvalCommitmentPoly(PHIs, i), every other As element and all of PHIs
unchanged. -/
def definitelyOverwritten (q : ℕ)
    (b bF : List (ℕ × Option (ResharingBcast q))) (i : ℕ) : Prop :=
  ∃ d A0, alookup b i = some (some d)
    ∧ EvalCommitmentPoly q d.PHIs ((i : ℕ) : ZMod q) = some A0
    ∧ alookup bF i = some (some (ResharingBcast.mk (d.As.set 0 A0) d.PHIs))

/-- The loop never touches entries whose key is not pending. -/
theorem processSenders_untouched (q dpId : ℕ)
    (p2p : List (ℕ × Option ShamirShare)) :
    ∀ (pending : List ℕ) (acc : List (ℕ × Option (ResharingBcast q)))
      (gj : List (ℕ × ZMod q)) (phi0 : Option (ZMod q)) (j : ℕ),
      j ∉ pending →
      alookup ((processSenders q dpId p2p pending acc gj phi0).outB) j
        = alookup acc j := by
  intro pending
  induction pending with
  | nil =>
    intro acc gj phi0 j _
    rfl
  | cons i0 rest ih =>
    intro acc gj phi0 j hj
    rw [List.mem_cons, not_or] at hj
    rw [processSenders]
    rcases hse : senderEval q dpId i0 (alookup p2p i0) (alookup acc i0) phi0
      with e | c | ⟨e, data, A0⟩ | ⟨c, data, A0⟩ | ⟨gji, p0, data, A0⟩
    · rfl
    · rfl
    · exact alookup_aupdate_ne _ _ hj.1
    · exact alookup_aupdate_ne _ _ hj.1
    · rw [ih _ _ _ j hj.2]
      exact alookup_aupdate_ne _ _ hj.1

/-- Every sender of the overwrite set has its entry definitely overwritten
in the map the loop leaves behind, on every outcome of the loop. -/
theorem processSenders_defOver (q dpId : ℕ)
    (p2p : List (ℕ × Option ShamirShare))
    (b : List (ℕ × Option (ResharingBcast q))) :
    ∀ (pending : List ℕ) (acc : List (ℕ × Option (ResharingBcast q)))
      (gj : List (ℕ × ZMod q)) (phi0 : Option (ZMod q)),
      pending.Nodup →
      (∀ i ∈ pending, alookup acc i = alookup b i) →
      ∀ j ∈ overwrittenSenders q dpId p2p pending acc phi0,
        definitelyOverwritten q b
          ((processSenders q dpId p2p pending acc gj phi0).outB) j := by
  intro pending
  induction pending with
  | nil =>
    intro acc gj phi0 _ _ j hj
    exact absurd hj (List.not_mem_nil j)
  | cons i0 rest ih =>
    intro acc gj phi0 hnd hacc j hj
    rw [List.nodup_cons] at hnd
    rw [processSenders]
    rw [overwrittenSenders] at hj
    rcases hse : senderEval q dpId i0 (alookup p2p i0) (alookup acc i0) phi0
      with e | c | ⟨e, data, A0⟩ | ⟨c, data, A0⟩ | ⟨gji, p0, data, A0⟩ <;>
      rw [hse] at hj
    · exact absurd hj (List.not_mem_nil j)
    · exact absurd hj (List.not_mem_nil j)
    · have hji : j = i0 := by
        have hj' : j ∈ [i0] := hj
        simpa using hj'
      subst hji
      obtain ⟨hobd, hA0, _, _⟩ := senderEval_failUpd_inv hse
      refine ⟨data, A0, ?_, hA0, ?_⟩
      · rw [← hacc j (List.mem_cons_self _ _)]
        exact hobd
      · exact alookup_aupdate_self ⟨_, hobd⟩ _
    · have hji : j = i0 := by
        have hj' : j ∈ [i0] := hj
        simpa using hj'
      subst hji
      obtain ⟨hobd, hA0⟩ := senderEval_crashUpd_inv hse
      refine ⟨data, A0, ?_, hA0, ?_⟩
      · rw [← hacc j (List.mem_cons_self _ _)]
        exact hobd
      · exact alookup_aupdate_self ⟨_, hobd⟩ _
    · obtain ⟨hobd, hA0, _, _, _, _⟩ := senderEval_pass_inv hse
      have hj' : j = i0 ∨ j ∈ overwrittenSenders q dpId p2p rest
          (aupdate acc i0 (some ⟨data.As.set 0 A0, data.PHIs⟩)) (some p0) := by
        have hjc : j ∈ i0 :: overwrittenSenders q dpId p2p rest
            (aupdate acc i0 (some ⟨data.As.set 0 A0, data.PHIs⟩))
            (some p0) := hj
        simpa using hjc
      rcases hj' with hj0 | hjr
      · subst hj0
        refine ⟨data, A0, ?_, hA0, ?_⟩
        · rw [← hacc j (List.mem_cons_self _ _)]
          exact hobd
        · rw [processSenders_untouched q dpId p2p rest _ _ _ j hnd.1]
          exact alookup_aupdate_self ⟨_, hobd⟩ _
      · refine ih _ _ _ hnd.2 ?_ j hjr
        intro k hk
        rw [alookup_aupdate_ne _ _ (fun hki : k = i0 => hnd.1 (hki ▸ hk))]
        exact hacc k (List.mem_cons_of_mem _ hk)

/-- When the loop completes, the overwrite set is every sender. -/
theorem overwrittenSenders_done (q dpId : ℕ)
    (p2p : List (ℕ × Option ShamirShare)) :
    ∀ (pending : List ℕ) (acc : List (ℕ × Option (ResharingBcast q)))
      (gj : List (ℕ × ZMod q)) (phi0 : Option (ZMod q))
      (accF : List (ℕ × Option (ResharingBcast q)))
      (gjF : List (ℕ × ZMod q)) (phi0F : Option (ZMod q)),
      processSenders q dpId p2p pending acc gj phi0 = .done accF gjF phi0F →
      overwrittenSenders q dpId p2p pending acc phi0 = pending := by
  intro pending
  induction pending with
  | nil =>
    intro acc gj phi0 accF gjF phi0F _
    rfl
  | cons i0 rest ih =>
    intro acc gj phi0 accF gjF phi0F h
    rw [processSenders] at h
    rw [overwrittenSenders]
    rcases hse : senderEval q dpId i0 (alookup p2p i0) (alookup acc i0) phi0
      with e | c | ⟨e, data, A0⟩ | ⟨c, data, A0⟩ | ⟨gji, p0, data, A0⟩ <;>
      rw [hse] at h
    · cases h
    · cases h
    · cases h
    · cases h
    · show i0 :: overwrittenSenders q dpId p2p rest
        (aupdate acc i0 (some ⟨data.As.set 0 A0, data.PHIs⟩)) (some p0)
        = i0 :: rest
      rw [ih _ _ _ _ _ _ h]

/-- When the loop stops rejecting the sub-share of sender i, the overwrite
set is exactly the prefix of passed senders together with i. -/
theorem overwrittenSenders_fail (q dpId : ℕ)
    (p2p : List (ℕ × Option ShamirShare)) :
    ∀ (pending : List ℕ) (acc : List (ℕ × Option (ResharingBcast q)))
      (gj : List (ℕ × ZMod q)) (phi0 : Option (ZMod q)) (i dj : ℕ)
      (accF : List (ℕ × Option (ResharingBcast q))),
      processSenders q dpId p2p pending acc gj phi0
        = .fail (.invalidSubShare i dj) accF →
      ∃ pre post, pending = pre ++ i :: post
        ∧ overwrittenSenders q dpId p2p pending acc phi0 = pre ++ [i] := by
  intro pending
  induction pending with
  | nil =>
    intro acc gj phi0 i dj accF h
    rw [processSenders] at h
    cases h
  | cons i0 rest ih =>
    intro acc gj phi0 i dj accF h
    rw [processSenders] at h
    rw [overwrittenSenders]
    rcases hse : senderEval q dpId i0 (alookup p2p i0) (alookup acc i0) phi0
      with e | c | ⟨e, data, A0⟩ | ⟨c, data, A0⟩ | ⟨gji, p0, data, A0⟩ <;>
      rw [hse] at h
    · have he := senderEval_failNoUpd_inv hse
      subst he
      cases h
    · cases h
    · obtain ⟨hobd, hA0, he, _⟩ := senderEval_failUpd_inv hse
      subst he
      have hinj := h
      rw [LoopOut.fail.injEq, FrostError.invalidSubShare.injEq] at hinj
      obtain ⟨⟨hi, hjj⟩, _⟩ := hinj
      subst hi
      exact ⟨[], rest, rfl, rfl⟩
    · cases h
    · obtain ⟨pre, post, hsplit, hows⟩ := ih _ _ _ i dj accF h
      refine ⟨i0 :: pre, post, ?_, ?_⟩
      · rw [hsplit]
        rfl
      · show i0 :: overwrittenSenders q dpId p2p rest
          (aupdate acc i0 (some ⟨data.As.set 0 A0, data.PHIs⟩)) (some p0)
          = (i0 :: pre) ++ [i]
        rw [hows]
        rfl

/-- Claim C10: ResharingRound2 mutates the caller-supplied broadcast map in
place.  Every entry is left untouched or with exactly its As[0] overwritten
by EvalCommitmentPoly(PHIs, senderId); the overwrite set — all passed
senders, plus the stopping sender when it stops after its overwrite — is
every sender when the loop completes (so every post-loop return path shows
all overwrites) and exactly the passed prefix together with the rejected
sender on an invalid-sub-share rejection; and unless the call rejects its
inputs structurally before processing any sender (returning the map
untouched, never with an invalid-sub-share error), every sender of the
overwrite set has its overwrite visible in the returned map, other As
elements and PHIs unchanged, the rejected sender included. -/
theorem ResharingRound2_mutates_As0 (q : ℕ) (dp : DkgParticipant q)
    (oldT : ℕ) (bcast : List (ℕ × Option (ResharingBcast q)))
    (p2p : List (ℕ × Option ShamirShare))
    (hnd : (bcast.map Prod.fst).Nodup) :
    bcastEvolves q bcast (ResharingRound2 q dp oldT bcast p2p).2
    ∧ (∀ accF gjF phi0F,
        processSenders q dp.Id p2p (bcast.map Prod.fst) bcast [] none
          = .done accF gjF phi0F →
        overwrittenSenders q dp.Id p2p (bcast.map Prod.fst) bcast none
          = bcast.map Prod.fst)
    ∧ (∀ i dj accF,
        processSenders q dp.Id p2p (bcast.map Prod.fst) bcast [] none
          = .fail (.invalidSubShare i dj) accF →
        ∃ pre post, bcast.map Prod.fst = pre ++ i :: post
          ∧ overwrittenSenders q dp.Id p2p (bcast.map Prod.fst) bcast none
              = pre ++ [i])
    ∧ (((ResharingRound2 q dp oldT bcast p2p).2 = bcast
          ∧ ∀ i j, (ResharingRound2 q dp oldT bcast p2p).1
              ≠ .err (.invalidSubShare i j))
        ∨ ((∀ j ∈ overwrittenSenders q dp.Id p2p (bcast.map Prod.fst) bcast
              none,
            definitelyOverwritten q bcast
              (ResharingRound2 q dp oldT bcast p2p).2 j)
          ∧ ∀ i j, (ResharingRound2 q dp oldT bcast p2p).1
                = .err (.invalidSubShare i j) →
              i ∈ overwrittenSenders q dp.Id p2p (bcast.map Prod.fst) bcast
                none)) := by
  refine ⟨?_, ?_, ?_, ?_⟩
  · rcases ResharingRound2_snd q dp oldT bcast p2p with h | h
    · rw [h]
      exact bcastEvolves_refl q bcast
    · rw [h]
      exact processSenders_evolves q dp.Id p2p _ bcast [] none hnd
  · intro accF gjF phi0F h
    exact overwrittenSenders_done q dp.Id p2p _ _ _ _ _ _ _ h
  · intro i dj accF h
    exact overwrittenSenders_fail q dp.Id p2p _ _ _ _ i dj accF h
  · simp only [ResharingRound2]
    split_ifs
    · exact Or.inl ⟨rfl, by intro i j h; simp at h⟩
    · exact Or.inl ⟨rfl, by intro i j h; simp at h⟩
    · exact Or.inl ⟨rfl, by intro i j h; simp at h⟩
    · exact Or.inl ⟨rfl, by intro i j h; simp at h⟩
    · refine Or.inr ⟨?_, ?_⟩
      · intro j hj
        have hd := processSenders_defOver q dp.Id p2p bcast
          (bcast.map Prod.fst) bcast [] none hnd (fun _ _ => rfl) j hj
        rcases hps : processSenders q dp.Id p2p (bcast.map Prod.fst) bcast
          [] none with ⟨e, acc⟩ | ⟨c, acc⟩ | ⟨acc, gj, phi0⟩ <;>
          rw [hps] at hd <;> exact hd
      · intro i j h
        rcases hps : processSenders q dp.Id p2p (bcast.map Prod.fst) bcast
          [] none with ⟨e, acc⟩ | ⟨c, acc⟩ | ⟨acc, gj, phi0⟩ <;>
          rw [hps] at h
        · have he : e = FrostError.invalidSubShare i j := by
            simpa using h
          subst he
          obtain ⟨pre, post, hsplit, hows⟩ :=
            overwrittenSenders_fail q dp.Id p2p _ _ _ _ i j acc hps
          rw [hows]
          simp
        · exact absurd h (by simp)
        · exact absurd
            (show postProcess q dp oldT (List.map Prod.fst bcast) acc gj phi0
              = RunResult.err (.invalidSubShare i j) from h)
            (postProcess_ne_subshare q dp oldT _ acc gj phi0 i j)

/-- Witness for claim C10: a run over ZMod 11 in which sender 1 is rejected;
the returned broadcast map carries, under key 1, the original entry with
As[0] overwritten by the value 5 derived from its PHIs [2, 3] at sender 1,
and the claim theorem recovers exactly that entry. -/
theorem ResharingRound2_mutates_As0_witness :
    alookup (ResharingRound2 11 ⟨5, 2, 6, none, none, none, []⟩ 2
        [(1, some ⟨[9], [2, 3]⟩), (2, some ⟨[9], [2, 3]⟩)]
        [(1, some ⟨5, 6⟩), (2, some ⟨5, 6⟩)]).2 1
      = some (some (ResharingBcast.mk ([9].set 0 5) [2, 3])) := by
  have hthm := ResharingRound2_mutates_As0 11 ⟨5, 2, 6, none, none, none, []⟩
    2 [(1, some ⟨[9], [2, 3]⟩), (2, some ⟨[9], [2, 3]⟩)]
    [(1, some ⟨5, 6⟩), (2, some ⟨5, 6⟩)] (by decide)
  rcases hthm.2.2.2 with ⟨_, hne⟩ | ⟨hdef, hmem⟩
  · exact absurd (by decide) (hne 1 5)
  · obtain ⟨d, A0, hd, hA0, hout⟩ := hdef 1 (hmem 1 5 (by decide))
    have hd' : d = ResharingBcast.mk [9] [2, 3] := by
      have hx : alookup [(1, some (ResharingBcast.mk ([9] : List (ZMod 11))
          ([2, 3] : List (ZMod 11)))), (2, some ⟨[9], [2, 3]⟩)] 1
          = some (some (ResharingBcast.mk [9] [2, 3])) := by decide
      rw [hx] at hd
      exact (Option.some.inj (Option.some.inj hd)).symm
    subst hd'
    have hA0' : A0 = 5 := by
      have hx : EvalCommitmentPoly 11 [2, 3] ((1 : ℕ) : ZMod 11) = some 5 := by
        decide
      rw [hx] at hA0
      exact (Option.some.inj hA0).symm
    subst hA0'
    exact hout

/-! ## Claim theorems: ResharingRound2 never completes -/

/-- All entries of a broadcast map are present and have As vectors of a
fixed length. -/
def entriesAsLen (q n : ℕ) (l : List (ℕ × Option (ResharingBcast q))) :
    Prop :=
  ∀ p ∈ l, ∃ d, p.2 = some d ∧ d.As.length = n

theorem entriesAsLen_lookup {q n : ℕ}
    {l : List (ℕ × Option (ResharingBcast q))} {i : ℕ}
    {e : Option (ResharingBcast q)} (h : entriesAsLen q n l)
    (hl : alookup l i = some e) : ∃ d, e = some d ∧ d.As.length = n :=
  h (i, e) (alookup_eq_some_mem hl)

theorem entriesAsLen_aupdate {q n : ℕ}
    {l : List (ℕ × Option (ResharingBcast q))} {i : ℕ}
    (h : entriesAsLen q n l) {d : ResharingBcast q} (hd : d.As.length = n) :
    entriesAsLen q n (aupdate l i (some d)) := by
  intro p hp
  simp only [aupdate, List.mem_map] at hp
  obtain ⟨p0, hp0, hpe⟩ := hp
  by_cases hk : p0.1 = i
  · rw [if_pos hk] at hpe
    subst hpe
    exact ⟨d, rfl, hd⟩
  · rw [if_neg hk] at hpe
    subst hpe
    exact h p0 hp0

/-- The verification loop preserves presence, As lengths and the key list of
the broadcast map on any completed run. -/
theorem processSenders_done_inv (q dpId : ℕ)
    (p2p : List (ℕ × Option ShamirShare)) (n : ℕ) :
    ∀ (pending : List ℕ) (acc : List (ℕ × Option (ResharingBcast q)))
      (gj : List (ℕ × ZMod q)) (phi0 : Option (ZMod q))
      (accF : List (ℕ × Option (ResharingBcast q)))
      (gjF : List (ℕ × ZMod q)) (phi0F : Option (ZMod q)),
      processSenders q dpId p2p pending acc gj phi0 = .done accF gjF phi0F →
      entriesAsLen q n acc →
      entriesAsLen q n accF ∧ accF.map Prod.fst = acc.map Prod.fst := by
  intro pending
  induction pending with
  | nil =>
    intro acc gj phi0 accF gjF phi0F h hlen
    rw [processSenders] at h
    cases h
    exact ⟨hlen, rfl⟩
  | cons i0 rest ih =>
    intro acc gj phi0 accF gjF phi0F h hlen
    rw [processSenders] at h
    rcases hse : senderEval q dpId i0 (alookup p2p i0) (alookup acc i0) phi0
      with e | c | ⟨e, data, A0⟩ | ⟨c, data, A0⟩ | ⟨gji, p0, data, A0⟩ <;>
      rw [hse] at h
    · cases h
    · cases h
    · cases h
    · cases h
    · obtain ⟨hobd, _, _, _, _, _⟩ := senderEval_pass_inv hse
      obtain ⟨d, hd, hdl⟩ := entriesAsLen_lookup hlen hobd
      have hdd : data = d := Option.some.inj hd
      subst hdd
      have hupd : (ResharingBcast.mk (data.As.set 0 A0) data.PHIs).As.length
          = n := by
        simpa [List.length_set] using hdl
      obtain ⟨h1, h2⟩ := ih _ _ _ _ _ _ h (entriesAsLen_aupdate hlen hupd)
      exact ⟨h1, h2.trans (aupdate_map_fst _ _ _)⟩

/-- With empty As vectors (new threshold 1) the loop body can never pass a
sender, so the loop never completes on a non-empty sender list. -/
theorem processSenders_len0_no_done (q dpId : ℕ)
    (p2p : List (ℕ × Option ShamirShare)) (i0 : ℕ) (rest : List ℕ)
    (acc : List (ℕ × Option (ResharingBcast q))) (gj : List (ℕ × ZMod q))
    (phi0 : Option (ZMod q))
    (accF : List (ℕ × Option (ResharingBcast q))) (gjF : List (ℕ × ZMod q))
    (phi0F : Option (ZMod q))
    (hlen : entriesAsLen q 0 acc)
    (h : processSenders q dpId p2p (i0 :: rest) acc gj phi0
      = .done accF gjF phi0F) :
    False := by
  rw [processSenders] at h
  rcases hse : senderEval q dpId i0 (alookup p2p i0) (alookup acc i0) phi0
    with e | c | ⟨e, data, A0⟩ | ⟨c, data, A0⟩ | ⟨gji, p0, data, A0⟩ <;>
    rw [hse] at h
  · cases h
  · cases h
  · cases h
  · cases h
  · obtain ⟨hobd, _, hAs, _, _, _⟩ := senderEval_pass_inv hse
    obtain ⟨d, hd, hdl⟩ := entriesAsLen_lookup hlen hobd
    have hdd : data = d := Option.some.inj hd
    subst hdd
    exact hAs (List.length_eq_zero.mp hdl)

/-- Reading index n of an As vector of length n crashes the inner sum of the
commitments loop at its first sender. -/
theorem commitSum_crash (q : ℕ) (acc : List (ℕ × Option (ResharingBcast q)))
    (lam : ℕ → ZMod q) (n : ℕ) (hlen : entriesAsLen q n acc)
    (i0 : ℕ) (rest : List ℕ) (s : ZMod q)
    (hkey : i0 ∈ acc.map Prod.fst) :
    commitSum q acc lam n (i0 :: rest) s = .inl (.indexOutOfRange n n) := by
  obtain ⟨e, he⟩ := alookup_isSome_of_mem_keys hkey
  obtain ⟨d, hd, hdl⟩ := entriesAsLen_lookup hlen he
  subst hd
  have hget : d.As[n]? = none := List.getElem?_eq_none (le_of_eq hdl)
  rw [commitSum]
  simp [he, hget, hdl]

/-- For an exponent strictly below the As length the inner sum completes. -/
theorem commitSum_ok (q : ℕ) (acc : List (ℕ × Option (ResharingBcast q)))
    (lam : ℕ → ZMod q) (k n : ℕ) (hlen : entriesAsLen q n acc)
    (hk : k < n) :
    ∀ (S' : List ℕ) (s : ZMod q), (∀ i ∈ S', i ∈ acc.map Prod.fst) →
      ∃ v, commitSum q acc lam k S' s = .inr v := by
  intro S'
  induction S' with
  | nil =>
    intro s _
    exact ⟨s, rfl⟩
  | cons i0 rest ih =>
    intro s hkeys
    obtain ⟨e, he⟩ :=
      alookup_isSome_of_mem_keys (hkeys i0 (List.mem_cons_self _ _))
    obtain ⟨d, hd, hdl⟩ := entriesAsLen_lookup hlen he
    subst hd
    have hklt : k < d.As.length := by omega
    obtain ⟨v, hv⟩ := ih (s + d.As[k] * lam i0)
      (fun i hi => hkeys i (List.mem_cons_of_mem _ hi))
    refine ⟨v, ?_⟩
    rw [commitSum]
    simp [he, List.getElem?_eq_getElem hklt, hv]

/-- The commitments loop crashes with an index-out-of-range at exponent n
whenever the exponent list reaches n, all As vectors have length n and there
is at least one sender. -/
theorem commitmentsLoop_crash (q : ℕ)
    (acc : List (ℕ × Option (ResharingBcast q))) (lam : ℕ → ZMod q) (n : ℕ)
    (i0 : ℕ) (Srest : List ℕ) (hlen : entriesAsLen q n acc)
    (hkeys : ∀ i ∈ i0 :: Srest, i ∈ acc.map Prod.fst) :
    ∀ (ks : List ℕ), (∀ k ∈ ks, k ≤ n) → n ∈ ks →
      commitmentsLoop q acc lam (i0 :: Srest) ks
        = .inl (.indexOutOfRange n n) := by
  intro ks
  induction ks with
  | nil =>
    intro _ hmem
    simp at hmem
  | cons k ks ih =>
    intro hle hmem
    rw [commitmentsLoop]
    by_cases hk : k = n
    · subst hk
      rw [commitSum_crash q acc lam k hlen i0 Srest 0
        (hkeys i0 (List.mem_cons_self _ _))]
    · have hkn : k < n :=
        lt_of_le_of_ne (hle k (List.mem_cons_self _ _)) hk
      obtain ⟨v, hv⟩ := commitSum_ok q acc lam k n hlen hkn (i0 :: Srest) 0
        hkeys
      have hnks : n ∈ ks := by
        rcases List.mem_cons.mp hmem with h | h
        · exact absurd h.symm hk
        · exact h
      have hrec := ih (fun k' hk' => hle k' (List.mem_cons_of_mem _ hk')) hnks
      rw [hv, hrec]

/-- Under the structural invariants actually established by the input
checks — every As vector of length Threshold - 1, at least one sender, and
a threshold of at least two — the post-loop phase never returns success:
the commitments loop faults first. -/
theorem postProcess_not_ok (q : ℕ) (dp : DkgParticipant q) (oldT : ℕ)
    (i0 : ℕ) (Srest : List ℕ)
    (acc : List (ℕ × Option (ResharingBcast q))) (gj : List (ℕ × ZMod q))
    (phi0 : Option (ZMod q))
    (hlen : entriesAsLen q (dp.Threshold - 1) acc)
    (hT : 2 ≤ dp.Threshold)
    (hkeys : ∀ i ∈ i0 :: Srest, i ∈ acc.map Prod.fst) :
    (postProcess q dp oldT (i0 :: Srest) acc gj phi0).isOk = false := by
  unfold postProcess
  split_ifs with h1 h2
  · rfl
  · rfl
  · rcases phi0 with _ | p0
    · rfl
    · have hcl := commitmentsLoop_crash q acc (lagrangeCoeffAt0 q (i0 :: Srest))
        (dp.Threshold - 1) i0 Srest hlen hkeys
        (List.range' 1 (dp.Threshold - 1))
        (by
          intro k hk
          rw [List.mem_range'_1] at hk
          omega)
        (by
          rw [List.mem_range'_1]
          omega)
      simp only [hcl]
      rfl

/-- Claim C1 (code bug): ResharingRound2 never returns success on any input:
every run ends in a returned error or a runtime fault, because the
structural check pins the As vectors to length Threshold - 1 while the
new-commitments loop reads index Threshold - 1.  In particular no run
exists after which the verification key could be compared with the old
one. -/
theorem ResharingRound2_never_ok (q : ℕ) (dp : DkgParticipant q) (oldT : ℕ)
    (bcast : List (ℕ × Option (ResharingBcast q)))
    (p2p : List (ℕ × Option ShamirShare)) :
    ((ResharingRound2 q dp oldT bcast p2p).1).isOk = false := by
  simp only [ResharingRound2]
  split_ifs with h1 h2 h3 h4
  · rfl
  · rfl
  · rfl
  · rfl
  · rcases hps : processSenders q dp.Id p2p (bcast.map Prod.fst) bcast [] none
      with ⟨e, acc⟩ | ⟨c, acc⟩ | ⟨acc, gj, phi0⟩
    · rfl
    · rfl
    · show (postProcess q dp oldT (bcast.map Prod.fst) acc gj phi0).isOk
        = false
      have hlen0 : entriesAsLen q (dp.Threshold - 1) bcast := by
        intro p hp
        rcases hpe : p.2 with _ | d
        · exact absurd
            (List.any_eq_true.mpr ⟨p, hp, by simp [hpe, badBcastEntry]⟩) h3
        · refine ⟨d, rfl, ?_⟩
          by_contra hlenne
          exact h3 (List.any_eq_true.mpr
            ⟨p, hp, by simp [hpe, hlenne, badBcastEntry]⟩)
      rcases hSe : bcast.map Prod.fst with _ | ⟨i0, Srest⟩
      · have hsh : newShamirOk oldT 0 = false := by
          simp [newShamirOk]
          omega
        simp [postProcess, hsh, RunResult.isOk]
      · rw [hSe] at hps
        by_cases hT2 : 2 ≤ dp.Threshold
        · obtain ⟨hlenF, hkeysF⟩ := processSenders_done_inv q dp.Id p2p
            (dp.Threshold - 1) _ _ _ _ _ _ _ hps hlen0
          refine postProcess_not_ok q dp oldT i0 Srest acc gj phi0 hlenF hT2
            ?_
          intro i hi
          rw [hkeysF, hSe]
          exact hi
        · exfalso
          have h0 : dp.Threshold - 1 = 0 := by
            have : dp.Threshold ≠ 0 := by
              intro hc
              exact h1 (Or.inl hc)
            omega
          rw [h0] at hlen0
          exact processSenders_len0_no_done q dp.Id p2p i0 Srest bcast []
            none acc gj phi0 hlen0 hps

/-! ## Claim theorems: independence of the sender-supplied As[0] -/

/-- Two broadcast entries that agree everywhere except possibly at As[0]. -/
def entryVariant (q : ℕ) :
    Option (ResharingBcast q) → Option (ResharingBcast q) → Prop
  | none, none => True
  | some d1, some d2 => d1.PHIs = d2.PHIs ∧ ∃ x, d2.As = d1.As.set 0 x
  | _, _ => False

/-- Two broadcast maps with the same keys in the same order whose entries
differ at most in the value of As[0]. -/
def bcastVariant (q : ℕ)
    (b1 b2 : List (ℕ × Option (ResharingBcast q))) : Prop :=
  List.Forall₂ (fun p1 p2 => p1.1 = p2.1 ∧ entryVariant q p1.2 p2.2) b1 b2

theorem entryVariant_refl (q : ℕ) (e : Option (ResharingBcast q)) :
    entryVariant q e e := by
  cases e with
  | none => trivial
  | some d => exact ⟨rfl, exists_set_zero_self 0 d.As⟩

theorem bcastVariant_keys {q : ℕ}
    {b1 b2 : List (ℕ × Option (ResharingBcast q))}
    (h : bcastVariant q b1 b2) : b1.map Prod.fst = b2.map Prod.fst := by
  induction h with
  | nil => rfl
  | cons hp _ ih => simp [hp.1, ih]

theorem bcastVariant_lookup {q : ℕ}
    {b1 b2 : List (ℕ × Option (ResharingBcast q))}
    (h : bcastVariant q b1 b2) (i : ℕ) :
    (alookup b1 i = none ∧ alookup b2 i = none) ∨
    ∃ e1 e2, alookup b1 i = some e1 ∧ alookup b2 i = some e2 ∧
      entryVariant q e1 e2 := by
  induction h with
  | nil => exact Or.inl ⟨rfl, rfl⟩
  | cons hp hrest ih =>
    rename_i p1 p2 l1 l2
    by_cases hk : p1.1 = i
    · refine Or.inr ⟨p1.2, p2.2, ?_, ?_, hp.2⟩
      · rw [alookup, if_pos hk]
      · rw [alookup, if_pos (hp.1 ▸ hk)]
    · rw [alookup, if_neg hk, alookup, if_neg (hp.1 ▸ hk)] at *
      exact ih

theorem bcastVariant_aupdate {q : ℕ}
    {b1 b2 : List (ℕ × Option (ResharingBcast q))}
    (h : bcastVariant q b1 b2) (i : ℕ) (v : Option (ResharingBcast q)) :
    bcastVariant q (aupdate b1 i v) (aupdate b2 i v) := by
  induction h with
  | nil => exact List.Forall₂.nil
  | cons hp hrest ih =>
    rename_i p1 p2 l1 l2
    obtain ⟨a1, e1⟩ := p1
    obtain ⟨a2, e2⟩ := p2
    have ha : a1 = a2 := hp.1
    subst ha
    rw [aupdate_cons, aupdate_cons]
    by_cases hk : a1 = i
    · rw [if_pos hk, if_pos hk]
      exact List.Forall₂.cons ⟨rfl, entryVariant_refl q v⟩ ih
    · rw [if_neg hk, if_neg hk]
      exact List.Forall₂.cons hp ih

/-- The structural badness of one broadcast entry is blind to As[0]. -/
theorem entryVariant_bad_eq (q T oldT : ℕ)
    {e1 e2 : Option (ResharingBcast q)} (h : entryVariant q e1 e2) :
    badBcastEntry q T oldT e1 = badBcastEntry q T oldT e2 := by
  cases e1 with
  | none =>
    cases e2 with
    | none => rfl
    | some d2 => exact h.elim
  | some d1 =>
    cases e2 with
    | none => exact h.elim
    | some d2 =>
      obtain ⟨hPHI, x, hAs⟩ := h
      simp [badBcastEntry, hAs, hPHI, List.length_set]

theorem bcastVariant_any_bad (q T oldT : ℕ)
    {b1 b2 : List (ℕ × Option (ResharingBcast q))}
    (h : bcastVariant q b1 b2) :
    (b1.any fun p => badBcastEntry q T oldT p.2)
      = (b2.any fun p => badBcastEntry q T oldT p.2) := by
  induction h with
  | nil => rfl
  | cons hp _ ih =>
    simp only [List.any_cons, ih, entryVariant_bad_eq q T oldT hp.2]

/-- Relation between the loop-body results of two As[0]-variant runs: the
same verdict, and equal overwritten entries. -/
def sresVariant (q : ℕ) : SenderRes q → SenderRes q → Prop
  | .failNoUpd e, .failNoUpd e' => e = e'
  | .crashNoUpd c, .crashNoUpd c' => c = c'
  | .failUpd e d A0, .failUpd e' d' A0' =>
      e = e' ∧ A0 = A0' ∧ d.PHIs = d'.PHIs ∧ d.As.set 0 A0 = d'.As.set 0 A0'
  | .crashUpd c d A0, .crashUpd c' d' A0' =>
      c = c' ∧ A0 = A0' ∧ d.PHIs = d'.PHIs ∧ d.As.set 0 A0 = d'.As.set 0 A0'
  | .pass g p d A0, .pass g' p' d' A0' =>
      g = g' ∧ p = p' ∧ A0 = A0' ∧ d.PHIs = d'.PHIs
        ∧ d.As.set 0 A0 = d'.As.set 0 A0'
  | _, _ => False

theorem sresVariant_refl (q : ℕ) (r : SenderRes q) : sresVariant q r r := by
  cases r <;> simp [sresVariant]

/-- The loop body treats As[0]-variant entries identically: it derives the
same verdict and writes back the same overwritten entry. -/
theorem senderEval_variant (q dpId i0 : ℕ)
    (osh : Option (Option ShamirShare)) (phi0 : Option (ZMod q))
    {obd1 obd2 : Option (Option (ResharingBcast q))}
    (h : (obd1 = none ∧ obd2 = none) ∨
      ∃ e1 e2, obd1 = some e1 ∧ obd2 = some e2 ∧ entryVariant q e1 e2) :
    sresVariant q (senderEval q dpId i0 osh obd1 phi0)
      (senderEval q dpId i0 osh obd2 phi0) := by
  rcases h with ⟨h1, h2⟩ | ⟨e1, e2, h1, h2, hrel⟩
  · subst h1
    subst h2
    exact sresVariant_refl q _
  · subst h1
    subst h2
    rcases e1 with _ | d1 <;> rcases e2 with _ | d2
    · exact sresVariant_refl q _
    · exact hrel.elim
    · exact hrel.elim
    · obtain ⟨hPHI, x, hAs2⟩ := hrel
      obtain ⟨as2, phis2⟩ := d2
      simp only at hPHI hAs2
      subst hAs2
      subst hPHI
      rcases osh with _ | osh
      · simp [senderEval, sresVariant]
      rcases osh with _ | sh
      · simp [senderEval, sresVariant]
      rcases hdec : scalarSetBytes q sh.Value with _ | gji
      · simp [senderEval, hdec, sresVariant]
      rcases d1 with ⟨as1, phis1⟩
      simp only at *
      rcases hphi : (if phi0.isSome then phi0 else phis1[0]?) with _ | p0
      · simp [senderEval, hdec, hphi, sresVariant]
      rcases hA0 : EvalCommitmentPoly q phis1 ((i0 : ℕ) : ZMod q) with _ | A0
      · simp [senderEval, hdec, hphi, hA0, sresVariant]
      rcases as1 with _ | ⟨a, t⟩
      · simp [senderEval, hdec, hphi, hA0, sresVariant]
      · rcases hv : EvalCommitmentPoly q (A0 :: t) ((dpId : ℕ) : ZMod q)
          with _ | v
        · simp [senderEval, hdec, hphi, hA0, hv, sresVariant]
        · by_cases hcmp : v = gji <;>
            simp [senderEval, hdec, hphi, hA0, hv, hcmp, sresVariant]

/-- Relation between the loop outcomes of two As[0]-variant runs. -/
def loopVariant (q : ℕ) : LoopOut q → LoopOut q → Prop
  | .fail e b1, .fail e' b2 => e = e' ∧ bcastVariant q b1 b2
  | .crashed c b1, .crashed c' b2 => c = c' ∧ bcastVariant q b1 b2
  | .done b1 gj phi0, .done b2 gj' phi0' =>
      gj = gj' ∧ phi0 = phi0' ∧ bcastVariant q b1 b2
  | _, _ => False

/-- The verification loop is blind to the sender-supplied As[0] values. -/
theorem processSenders_variant (q dpId : ℕ)
    (p2p : List (ℕ × Option ShamirShare)) :
    ∀ (pending : List ℕ) (b1 b2 : List (ℕ × Option (ResharingBcast q)))
      (gj : List (ℕ × ZMod q)) (phi0 : Option (ZMod q)),
      bcastVariant q b1 b2 →
      loopVariant q (processSenders q dpId p2p pending b1 gj phi0)
        (processSenders q dpId p2p pending b2 gj phi0) := by
  intro pending
  induction pending with
  | nil =>
    intro b1 b2 gj phi0 h
    exact ⟨rfl, rfl, h⟩
  | cons i0 rest ih =>
    intro b1 b2 gj phi0 h
    have hsv := senderEval_variant q dpId i0 (alookup p2p i0) phi0
      (bcastVariant_lookup h i0)
    simp only [processSenders]
    rcases hs1 : senderEval q dpId i0 (alookup p2p i0) (alookup b1 i0) phi0
      with e1 | c1 | ⟨e1, d1, A01⟩ | ⟨c1, d1, A01⟩ | ⟨g1, p1, d1, A01⟩ <;>
      rcases hs2 : senderEval q dpId i0 (alookup p2p i0) (alookup b2 i0) phi0
        with e2 | c2 | ⟨e2, d2, A02⟩ | ⟨c2, d2, A02⟩ | ⟨g2, p2, d2, A02⟩ <;>
      rw [hs1, hs2] at hsv <;> dsimp only <;> try exact hsv.elim
    · exact ⟨hsv, h⟩
    · exact ⟨hsv, h⟩
    · obtain ⟨he, hA, hPHI, hset⟩ := hsv
      refine ⟨he, ?_⟩
      have hveq : (ResharingBcast.mk (d1.As.set 0 A01) d1.PHIs)
          = ResharingBcast.mk (d2.As.set 0 A02) d2.PHIs := by
        rw [hset, hPHI]
      rw [hveq]
      exact bcastVariant_aupdate h i0 _
    · obtain ⟨hc, hA, hPHI, hset⟩ := hsv
      refine ⟨hc, ?_⟩
      have hveq : (ResharingBcast.mk (d1.As.set 0 A01) d1.PHIs)
          = ResharingBcast.mk (d2.As.set 0 A02) d2.PHIs := by
        rw [hset, hPHI]
      rw [hveq]
      exact bcastVariant_aupdate h i0 _
    · obtain ⟨hg, hp, hA, hPHI, hset⟩ := hsv
      subst hg
      subst hp
      have hveq : (ResharingBcast.mk (d1.As.set 0 A01) d1.PHIs)
          = ResharingBcast.mk (d2.As.set 0 A02) d2.PHIs := by
        rw [hset, hPHI]
      rw [hveq]
      exact ih _ _ _ _ (bcastVariant_aupdate h i0 _)

/-- The inner commitment sum reads only As indices at least 1, so it is
blind to As[0]. -/
theorem commitSum_variant (q : ℕ)
    {acc1 acc2 : List (ℕ × Option (ResharingBcast q))}
    (h : bcastVariant q acc1 acc2) (lam : ℕ → ZMod q) (k : ℕ) (hk : k ≠ 0) :
    ∀ (S' : List ℕ) (s : ZMod q),
      commitSum q acc1 lam k S' s = commitSum q acc2 lam k S' s := by
  intro S'
  induction S' with
  | nil =>
    intro s
    rfl
  | cons i0 rest ih =>
    intro s
    rw [commitSum, commitSum]
    rcases bcastVariant_lookup h i0 with ⟨h1, h2⟩ |
      ⟨e1, e2, h1, h2, hrel⟩
    · rw [h1, h2]
    · rw [h1, h2]
      rcases e1 with _ | d1 <;> rcases e2 with _ | d2
      · rfl
      · exact hrel.elim
      · exact hrel.elim
      · obtain ⟨hPHI, x, hAs2⟩ := hrel
        have hget : d2.As.get? k = d1.As.get? k := by
          rw [hAs2]
          exact List.get?_set_ne _ _ (Ne.symm hk)
        have hlen : d2.As.length = d1.As.length := by
          rw [hAs2, List.length_set]
        dsimp only
        rw [hget, hlen]
        rcases hga : d1.As.get? k with _ | a
        · rfl
        · exact ih _

/-- The commitments loop over exponents 1..T-1 is blind to As[0]. -/
theorem commitmentsLoop_variant (q : ℕ)
    {acc1 acc2 : List (ℕ × Option (ResharingBcast q))}
    (h : bcastVariant q acc1 acc2) (lam : ℕ → ZMod q) (S : List ℕ) :
    ∀ (ks : List ℕ), (∀ k ∈ ks, k ≠ 0) →
      commitmentsLoop q acc1 lam S ks = commitmentsLoop q acc2 lam S ks := by
  intro ks
  induction ks with
  | nil =>
    intro _
    rfl
  | cons k ks ih =>
    intro hks
    rw [commitmentsLoop, commitmentsLoop,
      commitSum_variant q h lam k (hks k (List.mem_cons_self _ _)) S 0,
      ih (fun k' hk' => hks k' (List.mem_cons_of_mem _ hk'))]

/-- The post-loop phase is blind to As[0]. -/
theorem postProcess_variant (q : ℕ) (dp : DkgParticipant q) (oldT : ℕ)
    (S : List ℕ) (gj : List (ℕ × ZMod q)) (phi0 : Option (ZMod q))
    {acc1 acc2 : List (ℕ × Option (ResharingBcast q))}
    (h : bcastVariant q acc1 acc2) :
    postProcess q dp oldT S acc1 gj phi0
      = postProcess q dp oldT S acc2 gj phi0 := by
  unfold postProcess
  split_ifs
  · rfl
  · rfl
  · dsimp only
    rcases phi0 with _ | p0
    · rfl
    · rw [commitmentsLoop_variant q h (lagrangeCoeffAt0 q S) S
        (List.range' 1 (dp.Threshold - 1))
        (by
          intro k hk
          rw [List.mem_range'_1] at hk
          omega)]

/-- Claim C5: the outcome of ResharingRound2 is independent of the
sender-supplied As[0] entries: runs on broadcast maps that differ only in
the As[0] values have identical per-sender verdicts and identical results,
because each As[0] is overwritten with the value derived from the old joint
commitments before it is used. -/
theorem ResharingRound2_As0_independent (q : ℕ) (dp : DkgParticipant q)
    (oldT : ℕ) (b1 b2 : List (ℕ × Option (ResharingBcast q)))
    (p2p : List (ℕ × Option ShamirShare))
    (h : bcastVariant q b1 b2) :
    (ResharingRound2 q dp oldT b1 p2p).1
      = (ResharingRound2 q dp oldT b2 p2p).1 := by
  simp only [ResharingRound2]
  rw [List.Forall₂.length_eq h, bcastVariant_any_bad q dp.Threshold oldT h,
    bcastVariant_keys h]
  split_ifs
  · rfl
  · rfl
  · rfl
  · rfl
  · have hlv := processSenders_variant q dp.Id p2p (b2.map Prod.fst) b1 b2
      [] none h
    rcases hr1 : processSenders q dp.Id p2p (b2.map Prod.fst) b1 [] none
      with ⟨e1, acc1⟩ | ⟨c1, acc1⟩ | ⟨acc1, gj1, phi01⟩ <;>
      rcases hr2 : processSenders q dp.Id p2p (b2.map Prod.fst) b2 [] none
        with ⟨e2, acc2⟩ | ⟨c2, acc2⟩ | ⟨acc2, gj2, phi02⟩ <;>
      rw [hr1, hr2] at hlv <;> try exact hlv.elim
    · simp [hlv.1]
    · simp [hlv.1]
    · obtain ⟨hg, hp, hacc⟩ := hlv
      subst hg
      subst hp
      simp only
      rw [postProcess_variant q dp oldT (b2.map Prod.fst) gj1 phi01 hacc]

/-- Witness for C5: a concrete pair of broadcast maps over ZMod 11 that
differ only in the sender's As[0] (9 versus 7) yields identical
ResharingRound2 outcomes. -/
theorem ResharingRound2_As0_independent_witness :
    (ResharingRound2 11 ⟨4, 3, 3, none, none, none, []⟩ 1
        [(1, some ⟨[9, 4], [2]⟩)] [(1, some ⟨4, 7⟩)]).1
      = (ResharingRound2 11 ⟨4, 3, 3, none, none, none, []⟩ 1
        [(1, some ⟨[7, 4], [2]⟩)] [(1, some ⟨4, 7⟩)]).1 :=
  ResharingRound2_As0_independent 11 ⟨4, 3, 3, none, none, none, []⟩ 1
    [(1, some ⟨[9, 4], [2]⟩)] [(1, some ⟨[7, 4], [2]⟩)] [(1, some ⟨4, 7⟩)]
    (List.Forall₂.cons ⟨rfl, ⟨rfl, 7, rfl⟩⟩ List.Forall₂.nil)

/-! ## Claim theorems: order-dependence of the sender iteration -/

/-- Forward construction of a pass verdict of the loop body from its
constituent checks. -/
theorem senderEval_pass_build {q dpId i0 : ℕ}
    {osh : Option (Option ShamirShare)}
    {obd : Option (Option (ResharingBcast q))} {phi0 : Option (ZMod q)}
    {gji p0 : ZMod q} {data : ResharingBcast q} {A0 : ZMod q}
    (hobd : obd = some (some data))
    (hsh : ∃ share, osh = some (some share)
      ∧ scalarSetBytes q share.Value = some gji)
    (hphi : (if phi0.isSome then phi0 else data.PHIs.get? 0) = some p0)
    (hA0 : EvalCommitmentPoly q data.PHIs ((i0 : ℕ) : ZMod q) = some A0)
    (hAs : data.As ≠ [])
    (hv : EvalCommitmentPoly q (data.As.set 0 A0) ((dpId : ℕ) : ZMod q)
      = some gji) :
    senderEval q dpId i0 osh obd phi0 = .pass gji p0 data A0 := by
  obtain ⟨share, hsh1, hsh2⟩ := hsh
  subst hobd
  subst hsh1
  obtain ⟨as, phis⟩ := data
  dsimp only at hphi hA0 hAs hv ⊢
  rcases as with _ | ⟨a, t⟩
  · exact absurd rfl hAs
  · simp only [List.get?_eq_getElem?] at hphi
    simp only [List.set_cons_zero] at hv
    simp [senderEval, hsh2, hphi, hA0, hv]

/-- A sender that passes with some observed phi0 passes with any observed
phi0, with the same sub-share and derived values. -/
theorem senderEval_pass_some {q dpId i0 : ℕ}
    {osh : Option (Option ShamirShare)}
    {obd : Option (Option (ResharingBcast q))} {phi0 : Option (ZMod q)}
    {gji p0 : ZMod q} {data : ResharingBcast q} {A0 : ZMod q}
    (h : senderEval q dpId i0 osh obd phi0 = .pass gji p0 data A0)
    (z : ZMod q) :
    senderEval q dpId i0 osh obd (some z) = .pass gji z data A0 := by
  obtain ⟨hobd, hA0, hAs, hsh, hphi, hv⟩ := senderEval_pass_inv h
  exact senderEval_pass_build hobd hsh (by simp) hA0 hAs hv

/-- A sender with non-empty PHIs that passes also passes when it is the
first sender observed. -/
theorem senderEval_pass_none {q dpId i0 : ℕ}
    {osh : Option (Option ShamirShare)}
    {obd : Option (Option (ResharingBcast q))} {phi0 : Option (ZMod q)}
    {gji p0 : ZMod q} {data : ResharingBcast q} {A0 : ZMod q}
    (h : senderEval q dpId i0 osh obd phi0 = .pass gji p0 data A0)
    (hPHI : data.PHIs ≠ []) :
    ∃ p1, senderEval q dpId i0 osh obd none = .pass gji p1 data A0 := by
  obtain ⟨hobd, hA0, hAs, hsh, hphi, hv⟩ := senderEval_pass_inv h
  obtain ⟨y, hy⟩ : ∃ y, data.PHIs[0]? = some y := by
    rcases hP : data.PHIs with _ | ⟨p, ps⟩
    · exact absurd hP hPHI
    · exact ⟨p, by simp [hP]⟩
  exact ⟨y, senderEval_pass_build hobd hsh (by simp [hy]) hA0 hAs hv⟩

/-- A sender passes statically: its loop body passes against the original
maps when some phi0 has already been observed (the verdict is then
independent of the observed value). -/
def passesStatic (q dpId : ℕ) (p2p : List (ℕ × Option ShamirShare))
    (b : List (ℕ × Option (ResharingBcast q))) (i : ℕ) : Prop :=
  ∃ g p d A0, senderEval q dpId i (alookup p2p i) (alookup b i) (some 0)
    = SenderRes.pass g p d A0

/-- A completed verification loop passes every pending sender statically. -/
theorem processSenders_done_passes (q dpId : ℕ)
    (p2p : List (ℕ × Option ShamirShare))
    (b : List (ℕ × Option (ResharingBcast q))) :
    ∀ (pending : List ℕ) (acc : List (ℕ × Option (ResharingBcast q)))
      (gj : List (ℕ × ZMod q)) (phi0 : Option (ZMod q))
      (accF : List (ℕ × Option (ResharingBcast q)))
      (gjF : List (ℕ × ZMod q)) (phi0F : Option (ZMod q)),
      processSenders q dpId p2p pending acc gj phi0 = .done accF gjF phi0F →
      (∀ i ∈ pending, alookup acc i = alookup b i) →
      pending.Nodup →
      ∀ i ∈ pending, passesStatic q dpId p2p b i := by
  intro pending
  induction pending with
  | nil =>
    intro acc gj phi0 accF gjF phi0F _ _ _ i hi
    exact absurd hi (List.not_mem_nil i)
  | cons i0 rest ih =>
    intro acc gj phi0 accF gjF phi0F h hacc hnd i hi
    rw [processSenders] at h
    rcases hse : senderEval q dpId i0 (alookup p2p i0) (alookup acc i0) phi0
      with e | c | ⟨e, data, A0⟩ | ⟨c, data, A0⟩ | ⟨gji, p0, data, A0⟩ <;>
      rw [hse] at h
    · cases h
    · cases h
    · cases h
    · cases h
    · rw [hacc i0 (List.mem_cons_self _ _)] at hse
      rw [List.nodup_cons] at hnd
      rcases List.mem_cons.mp hi with hi0 | hirest
      · subst hi0
        exact ⟨gji, 0, data, A0, senderEval_pass_some hse 0⟩
      · refine ih _ _ _ _ _ _ h ?_ hnd.2 i hirest
        intro j hj
        rw [alookup_aupdate_ne _ _ (fun hji : j = i0 => hnd.1 (hji ▸ hj))]
        exact hacc j (List.mem_cons_of_mem _ hj)

/-- When every pending sender passes statically and all broadcast entries
carry non-empty PHIs, the verification loop completes in any order. -/
theorem processSenders_allpass_done (q dpId : ℕ)
    (p2p : List (ℕ × Option ShamirShare))
    (b : List (ℕ × Option (ResharingBcast q)))
    (hPH : ∀ i d, alookup b i = some (some d) → d.PHIs ≠ []) :
    ∀ (pending : List ℕ) (acc : List (ℕ × Option (ResharingBcast q)))
      (gj : List (ℕ × ZMod q)) (phi0 : Option (ZMod q)),
      (∀ i ∈ pending, passesStatic q dpId p2p b i) →
      (∀ i ∈ pending, alookup acc i = alookup b i) →
      pending.Nodup →
      ∃ accF gjF phi0F,
        processSenders q dpId p2p pending acc gj phi0
          = .done accF gjF phi0F := by
  intro pending
  induction pending with
  | nil =>
    intro acc gj phi0 _ _ _
    exact ⟨acc, gj, phi0, rfl⟩
  | cons i0 rest ih =>
    intro acc gj phi0 hpass hacc hnd
    obtain ⟨g, p, d, A0, hp0⟩ := hpass i0 (List.mem_cons_self _ _)
    rw [List.nodup_cons] at hnd
    have hobd := (senderEval_pass_inv hp0).1
    have hPHId : d.PHIs ≠ [] := hPH i0 d hobd
    have hlook := hacc i0 (List.mem_cons_self _ _)
    have hstep : ∃ g1 p1 d1 A1, senderEval q dpId i0 (alookup p2p i0)
        (alookup acc i0) phi0 = .pass g1 p1 d1 A1 := by
      rcases phi0 with _ | y
      · obtain ⟨p1, hp1⟩ := senderEval_pass_none hp0 hPHId
        exact ⟨g, p1, d, A0, by rw [hlook]; exact hp1⟩
      · exact ⟨g, y, d, A0, by rw [hlook]; exact senderEval_pass_some hp0 y⟩
    obtain ⟨g1, p1, d1, A1, hse⟩ := hstep
    rw [processSenders, hse]
    refine ih _ _ _ (fun j hj => hpass j (List.mem_cons_of_mem _ hj)) ?_ hnd.2
    intro j hj
    rw [alookup_aupdate_ne _ _ (fun hji : j = i0 => hnd.1 (hji ▸ hj))]
    exact hacc j (List.mem_cons_of_mem _ hj)

/-- Once some phi0 has been observed the loop only completes with an
observed phi0. -/
theorem processSenders_done_isSome (q dpId : ℕ)
    (p2p : List (ℕ × Option ShamirShare)) :
    ∀ (pending : List ℕ) (acc : List (ℕ × Option (ResharingBcast q)))
      (gj : List (ℕ × ZMod q)) (y : ZMod q)
      (accF : List (ℕ × Option (ResharingBcast q)))
      (gjF : List (ℕ × ZMod q)) (phi0F : Option (ZMod q)),
      processSenders q dpId p2p pending acc gj (some y) = .done accF gjF phi0F
      → phi0F.isSome := by
  intro pending
  induction pending with
  | nil =>
    intro acc gj y accF gjF phi0F h
    rw [processSenders] at h
    cases h
    rfl
  | cons i0 rest ih =>
    intro acc gj y accF gjF phi0F h
    rw [processSenders] at h
    rcases hse : senderEval q dpId i0 (alookup p2p i0) (alookup acc i0)
      (some y) with e | c | ⟨e, data, A0⟩ | ⟨c, data, A0⟩
      | ⟨gji, p0, data, A0⟩ <;> rw [hse] at h
    · cases h
    · cases h
    · cases h
    · cases h
    · exact ih _ _ _ _ _ _ h

/-- A loop completed over at least one sender has observed a phi0. -/
theorem processSenders_done_isSome_of_cons (q dpId : ℕ)
    (p2p : List (ℕ × Option ShamirShare)) (i0 : ℕ) (rest : List ℕ)
    (acc : List (ℕ × Option (ResharingBcast q))) (gj : List (ℕ × ZMod q))
    (phi0 : Option (ZMod q))
    (accF : List (ℕ × Option (ResharingBcast q))) (gjF : List (ℕ × ZMod q))
    (phi0F : Option (ZMod q))
    (h : processSenders q dpId p2p (i0 :: rest) acc gj phi0
      = .done accF gjF phi0F) :
    phi0F.isSome := by
  rw [processSenders] at h
  rcases hse : senderEval q dpId i0 (alookup p2p i0) (alookup acc i0) phi0
    with e | c | ⟨e, data, A0⟩ | ⟨c, data, A0⟩ | ⟨gji, p0, data, A0⟩ <;>
    rw [hse] at h
  · cases h
  · cases h
  · cases h
  · cases h
  · exact processSenders_done_isSome q dpId p2p _ _ _ _ _ _ _ h

/-- The Lagrange-coefficients configuration check only depends on the point
set, not on its order. -/
theorem lagrangeCoeffsOk_perm (t : ℕ) {xs ys : List ℕ} (hp : xs.Perm ys) :
    lagrangeCoeffsOk t xs = lagrangeCoeffsOk t ys := by
  unfold lagrangeCoeffsOk
  rw [hp.length_eq, perm_any hp, decide_eq_decide.mpr hp.nodup_iff]

/-- Exact outcome of the post-loop phase under the invariants established
by a completed run: either a recombination-configuration error, or the
index-out-of-range fault of the commitments loop. -/
theorem postProcess_eq_outcome (q : ℕ) (dp : DkgParticipant q) (oldT : ℕ)
    (i0 : ℕ) (Srest : List ℕ)
    (acc : List (ℕ × Option (ResharingBcast q))) (gj : List (ℕ × ZMod q))
    (p0 : ZMod q)
    (hlen : entriesAsLen q (dp.Threshold - 1) acc)
    (hT : 2 ≤ dp.Threshold)
    (hkeys : ∀ i ∈ i0 :: Srest, i ∈ acc.map Prod.fst) :
    postProcess q dp oldT (i0 :: Srest) acc gj (some p0)
      = if !(newShamirOk oldT (i0 :: Srest).length) then
          .err .shamirConfigError
        else if !(lagrangeCoeffsOk oldT (i0 :: Srest)) then .err .lagrangeError
        else .crash (.indexOutOfRange (dp.Threshold - 1) (dp.Threshold - 1))
    := by
  unfold postProcess
  split_ifs with h1 h2
  · rfl
  · rfl
  · have hcl := commitmentsLoop_crash q acc (lagrangeCoeffAt0 q (i0 :: Srest))
      (dp.Threshold - 1) i0 Srest hlen hkeys
      (List.range' 1 (dp.Threshold - 1))
      (by
        intro k hk
        rw [List.mem_range'_1] at hk
        omega)
      (by
        rw [List.mem_range'_1]
        omega)
    simp only [hcl]

/-- Counterexample to claim C6 as stated: two runs of ResharingRound2 on
the same broadcast and sub-share contents, iterated in the two possible
sender orders, return different errors — each names the offending sender it
happened to examine first, so the returned error is not order-independent.
-/
theorem ResharingRound2_order_dependent_cex :
    ([((1 : ℕ), some (ResharingBcast.mk (q := 11) [2] [1, 2])),
        (2, some (ResharingBcast.mk [2] [1, 2]))].Perm
      [(2, some (ResharingBcast.mk [2] [1, 2])),
        (1, some (ResharingBcast.mk [2] [1, 2]))])
    ∧ ([((1 : ℕ), some (ShamirShare.mk 5 0)),
        (2, some (ShamirShare.mk 5 0))].Perm
      [(2, some (ShamirShare.mk 5 0)), (1, some (ShamirShare.mk 5 0))])
    ∧ (ResharingRound2 11 ⟨5, 2, 6, none, none, none, []⟩ 2
        [(1, some ⟨[2], [1, 2]⟩), (2, some ⟨[2], [1, 2]⟩)]
        [(1, some ⟨5, 0⟩), (2, some ⟨5, 0⟩)]).1
      = .err (.invalidSubShare 1 5)
    ∧ (ResharingRound2 11 ⟨5, 2, 6, none, none, none, []⟩ 2
        [(2, some ⟨[2], [1, 2]⟩), (1, some ⟨[2], [1, 2]⟩)]
        [(2, some ⟨5, 0⟩), (1, some ⟨5, 0⟩)]).1
      = .err (.invalidSubShare 2 5)
    ∧ (RunResult.err (.invalidSubShare 1 5) : RunResult 11)
      ≠ .err (.invalidSubShare 2 5) := by
  decide

/-- Claim C6 (amended): ResharingRound2 is order-independent except for
which offending sender a rejection names.  Whenever the run in one order
completes its verification loop (every sender's sub-share passes), the run
on the same broadcast and sub-share contents in any other order yields the
identical result — in particular identical errors and identical state. -/
theorem ResharingRound2_order_independent_on_pass (q : ℕ)
    (dp : DkgParticipant q) (oldT : ℕ)
    (b1 b2 : List (ℕ × Option (ResharingBcast q)))
    (p1 p2 : List (ℕ × Option ShamirShare))
    (hpb : b1.Perm b2) (hpp : p1.Perm p2)
    (hnd : (b1.map Prod.fst).Nodup) (hndp : (p1.map Prod.fst).Nodup)
    (acc1 : List (ℕ × Option (ResharingBcast q))) (gj1 : List (ℕ × ZMod q))
    (phi01 : Option (ZMod q))
    (hdone : processSenders q dp.Id p1 (b1.map Prod.fst) b1 [] none
      = .done acc1 gj1 phi01) :
    (ResharingRound2 q dp oldT b1 p1).1 = (ResharingRound2 q dp oldT b2 p2).1
    := by
  simp only [ResharingRound2]
  rw [show b2.length = b1.length from hpb.length_eq.symm,
    show p2.length = p1.length from hpp.length_eq.symm,
    (perm_any hpb (fun p => badBcastEntry q dp.Threshold oldT p.2)).symm,
    (perm_any hpp (fun p => p.2.isNone)).symm]
  split_ifs with h1 h2 h3 h4
  · rfl
  · rfl
  · rfl
  · rfl
  · have hgood1 : ∀ pp ∈ b1, ∃ d, pp.2 = some d
        ∧ d.As.length = dp.Threshold - 1 ∧ d.PHIs.length = oldT := by
      intro pp hm
      rcases hpe : pp.2 with _ | d
      · exact absurd
          (List.any_eq_true.mpr ⟨pp, hm, by simp [hpe, badBcastEntry]⟩) h3
      · refine ⟨d, rfl, ?_, ?_⟩ <;> by_contra hc <;>
          exact h3 (List.any_eq_true.mpr
            ⟨pp, hm, by simp [hpe, badBcastEntry, hc]⟩)
    have hlen1 : entriesAsLen q (dp.Threshold - 1) b1 := by
      intro pp hm
      obtain ⟨d, hd, hA, _⟩ := hgood1 pp hm
      exact ⟨d, hd, hA⟩
    have hlen2 : entriesAsLen q (dp.Threshold - 1) b2 := by
      intro pp hm
      exact hlen1 pp (hpb.mem_iff.mpr hm)
    have hS : (b1.map Prod.fst).Perm (b2.map Prod.fst) := hpb.map Prod.fst
    have hndS2 : (b2.map Prod.fst).Nodup := hS.nodup_iff.mp hnd
    rcases hS1 : b1.map Prod.fst with _ | ⟨i0, Srest⟩
    · have hb1 : b1 = [] := List.map_eq_nil_iff.mp hS1
      have hb2 : b2 = [] := (hb1 ▸ hpb).symm.eq_nil
      rw [hb1, hb2]
      rfl
    · have hdone' := hdone
      rw [hS1] at hdone'
      by_cases hT2 : 2 ≤ dp.Threshold
      · -- oldT is at least one: the first sender passed with no observed
        -- phi0, so its PHIs[0] exists
        have holdT : 1 ≤ oldT := by
          rw [processSenders] at hdone'
          rcases hse : senderEval q dp.Id i0 (alookup p1 i0) (alookup b1 i0)
            none with e | c | ⟨e, data, A0⟩ | ⟨c, data, A0⟩
            | ⟨gji, p0, data, A0⟩ <;> rw [hse] at hdone'
          · cases hdone'
          · cases hdone'
          · cases hdone'
          · cases hdone'
          · obtain ⟨hobd, _, _, _, hphi, _⟩ := senderEval_pass_inv hse
            simp only [Option.isSome_none, Bool.false_eq_true, if_false]
              at hphi
            obtain ⟨d, hd, _, hP⟩ :=
              hgood1 (i0, some data) (alookup_eq_some_mem hobd)
            have hdd : data = d := Option.some.inj hd
            subst hdd
            have hne : data.PHIs ≠ [] := by
              intro hnil
              rw [hnil] at hphi
              simp at hphi
            have hpos : 0 < data.PHIs.length := List.length_pos.mpr hne
            omega
        have hPH : ∀ i d, alookup b1 i = some (some d) → d.PHIs ≠ [] := by
          intro i d hl
          obtain ⟨d', hd', _, hP⟩ :=
            hgood1 (i, some d) (alookup_eq_some_mem hl)
          have hdd : d = d' := Option.some.inj hd'
          subst hdd
          intro hnil
          rw [hnil] at hP
          simp at hP
          omega
        have hpassS : ∀ i ∈ b1.map Prod.fst, passesStatic q dp.Id p1 b1 i :=
          processSenders_done_passes q dp.Id p1 b1 (b1.map Prod.fst) b1 []
            none acc1 gj1 phi01 hdone (fun _ _ => rfl) hnd
        have hlookp : ∀ i, alookup p2 i = alookup p1 i := fun i =>
          (alookup_perm hpp hndp i).symm
        have hlookb : ∀ i, alookup b2 i = alookup b1 i := fun i =>
          (alookup_perm hpb hnd i).symm
        have hpassS2 : ∀ i ∈ b2.map Prod.fst,
            passesStatic q dp.Id p2 b1 i := by
          intro i hi
          obtain ⟨g, p, d, A0, hp0⟩ := hpassS i (hS.mem_iff.mpr hi)
          refine ⟨g, p, d, A0, ?_⟩
          rw [hlookp i]
          exact hp0
        obtain ⟨acc2, gj2, phi02, hdone2⟩ :=
          processSenders_allpass_done q dp.Id p2 b1 hPH (b2.map Prod.fst) b2
            [] none hpassS2 (fun i _ => hlookb i) hndS2
        rw [hdone', hdone2]
        show postProcess q dp oldT (i0 :: Srest) acc1 gj1 phi01
          = postProcess q dp oldT (b2.map Prod.fst) acc2 gj2 phi02
        rcases hS2e : b2.map Prod.fst with _ | ⟨j0, S2rest⟩
        · rw [hS1, hS2e] at hS
          cases hS.length_eq
        · have hdone2' := hdone2
          rw [hS2e] at hdone2'
          obtain ⟨p01, hp01⟩ := Option.isSome_iff_exists.mp
            (processSenders_done_isSome_of_cons q dp.Id p1 i0 Srest b1 []
              none acc1 gj1 phi01 hdone')
          obtain ⟨p02, hp02⟩ := Option.isSome_iff_exists.mp
            (processSenders_done_isSome_of_cons q dp.Id p2 j0 S2rest b2 []
              none acc2 gj2 phi02 hdone2')
          subst hp01
          subst hp02
          obtain ⟨hlenF1, hkeysF1⟩ := processSenders_done_inv q dp.Id p1
            (dp.Threshold - 1) _ _ _ _ _ _ _ hdone hlen1
          obtain ⟨hlenF2, hkeysF2⟩ := processSenders_done_inv q dp.Id p2
            (dp.Threshold - 1) _ _ _ _ _ _ _ hdone2 hlen2
          rw [postProcess_eq_outcome q dp oldT i0 Srest acc1 gj1 p01 hlenF1
            hT2 (by
              intro i hi
              rw [hkeysF1, hS1]
              exact hi)]
          rw [postProcess_eq_outcome q dp oldT j0 S2rest acc2 gj2 p02 hlenF2
            hT2 (by
              intro i hi
              rw [hkeysF2, hS2e]
              exact hi)]
          have hSc : (i0 :: Srest).Perm (j0 :: S2rest) := by
            rw [← hS1, ← hS2e]
            exact hS
          rw [show (i0 :: Srest).length = (j0 :: S2rest).length from
            hSc.length_eq, lagrangeCoeffsOk_perm oldT hSc]
      · exfalso
        have hTne : dp.Threshold ≠ 0 := fun hc => h1 (Or.inl hc)
        have h0 : dp.Threshold - 1 = 0 := by omega
        rw [h0] at hlen1
        exact processSenders_len0_no_done q dp.Id p1 i0 Srest b1 [] none
          acc1 gj1 phi01 hlen1 hdone'

/-- Witness for the amended claim C6: a concrete all-pass resharing pair of
runs over ZMod 11 in the two possible sender orders, with identical
outcomes. -/
theorem ResharingRound2_order_independent_on_pass_witness :
    (ResharingRound2 11 ⟨4, 2, 3, none, none, none, []⟩ 2
        [(1, some ⟨[1], [5, 0]⟩), (2, some ⟨[2], [5, 0]⟩)]
        [(1, some ⟨4, 5⟩), (2, some ⟨4, 5⟩)]).1
      = (ResharingRound2 11 ⟨4, 2, 3, none, none, none, []⟩ 2
        [(2, some ⟨[2], [5, 0]⟩), (1, some ⟨[1], [5, 0]⟩)]
        [(2, some ⟨4, 5⟩), (1, some ⟨4, 5⟩)]).1 :=
  ResharingRound2_order_independent_on_pass 11
    ⟨4, 2, 3, none, none, none, []⟩ 2
    [(1, some ⟨[1], [5, 0]⟩), (2, some ⟨[2], [5, 0]⟩)]
    [(2, some ⟨[2], [5, 0]⟩), (1, some ⟨[1], [5, 0]⟩)]
    [(1, some ⟨4, 5⟩), (2, some ⟨4, 5⟩)]
    [(2, some ⟨4, 5⟩), (1, some ⟨4, 5⟩)]
    (by decide) (by decide) (by decide) (by decide)
    [(1, some ⟨[5], [5, 0]⟩), (2, some ⟨[5], [5, 0]⟩)] [(1, 5), (2, 5)]
    (some 5) (by decide)

end Krypto
